import Mathlib

/-!
Shallow embedding of the ZenithPhoto persistence and import core.

Each definition mirrors one Rust function of the repository:
* keyword text handling      — apps/desktop/src/import/mod.rs
* catalog service operations — crates/catalog/src/services/catalog_service.rs
* collection membership      — crates/catalog/src/db/collections.rs
* schema migrations          — crates/catalog/src/db/migrations.rs
* directory scanner          — apps/desktop/src/import/scanner.rs
* import pipeline            — apps/desktop/src/import/mod.rs

Strings are manipulated through structurally recursive helpers over `List Char`
so that every definition evaluates inside the kernel.  File contents and image
blobs are abstracted to `Nat` identifiers; the BLAKE3 hash and the image
decoders are oracles passed as function arguments.  Timestamps and the
EXIF-derived image columns are elided: no modelled operation reads them.
-/

/-- Splitting a character list at every separator, mirroring Rust's
`str::split` (so `"a,,b"` gives `["a","","b"]` and `""` gives `[""]`). -/
def splitCharsAux (p : Char → Bool) (acc : List Char) : List Char → List (List Char)
  | [] => [acc.reverse]
  | c :: cs => if p c then acc.reverse :: splitCharsAux p [] cs else splitCharsAux p (c :: acc) cs

/-- `String` wrapper of `splitCharsAux`. -/
def strSplit (s : String) (p : Char → Bool) : List String :=
  (splitCharsAux p [] s.data).map List.asString

/-- Rust `str::trim` (whitespace from both ends). -/
def strTrim (s : String) : String :=
  (((s.data.dropWhile Char.isWhitespace).reverse.dropWhile Char.isWhitespace).reverse).asString

/-- Rust `str::to_ascii_lowercase` (Lean's `Char.toLower` only lowers `A`-`Z`). -/
def toAsciiLower (s : String) : String :=
  (s.data.map Char.toLower).asString

/-- Joining path segments back together with a separator. -/
def strIntercalate (sep : String) : List String → String
  | [] => ""
  | x :: xs => xs.foldl (fun acc s => acc ++ sep ++ s) x

/-- Total lexicographic order on strings by code point, used only as the
sort key order of the scanner's final `sort_by_key`. -/
def charListLe : List Char → List Char → Bool
  | [], _ => true
  | _ :: _, [] => false
  | a :: as, b :: bs => if a = b then charListLe as bs else decide (a.val < b.val)

/-- Boolean string order wrapper for `charListLe`. -/
def strLeBool (a b : String) : Bool := charListLe a.data b.data

/-- Stable insertion into a sorted list: the new element goes after all
existing elements that are `le` it (so the overall sort is stable, like
Rust's `sort_by_key`). -/
def insertByKey (le : α → α → Bool) (x : α) : List α → List α
  | [] => [x]
  | y :: ys => if le y x then y :: insertByKey le x ys else x :: y :: ys

/-- Stable sort by repeated insertion (agrees with any stable sort). -/
def sortByKey (le : α → α → Bool) (l : List α) : List α :=
  l.foldl (fun acc x => insertByKey le x acc) []

/-- `parse_keywords` (apps/desktop/src/import/mod.rs): split the raw text on
commas and newlines, trim each chunk, drop empties.  It does not
de-duplicate. -/
def parse_keywords (raw : String) : List String :=
  (((strSplit raw (· = ',')).flatMap fun chunk => strSplit chunk (· = '\n')).map strTrim).filter
    fun kw => kw ≠ ""

/-- One iteration of the `normalize_keywords` loop: keep the trimmed keyword
when it is non-empty and not yet present. -/
def normalizeKeywordsStep (out : List String) (kw : String) : List String :=
  let trimmed := strTrim kw
  if trimmed ≠ "" ∧ ¬ out.any (fun existing => existing = trimmed) then out ++ [trimmed]
  else out

/-- `normalize_keywords` (apps/desktop/src/import/mod.rs): trim, drop empties
and de-duplicate while preserving first-seen order. -/
def normalize_keywords (keywords : List String) : List String :=
  keywords.foldl normalizeKeywordsStep []

/-- One catalog image row.  Only the columns read or written by the verified
operations are kept; the EXIF metadata and timestamp columns are never
consulted by them and are elided. -/
structure Image where
  id : Nat
  folderId : Nat
  filename : String
  originalPath : String
  sidecarPath : Option String
  fileHash : Option String
  rating : Option Int
  flag : Option String
  colorLabel : Option String
deriving DecidableEq, Repr

/-- The catalog tables touched by the verified operations.  Association lists
stand for the SQL tables, ordered by rowid (insertion order). -/
structure Catalog where
  folders : List (Nat × String)
  images : List Image
  keywords : List (Nat × String)
  imageKeywords : List (Nat × Nat)
  thumbnails : List (Nat × Option Nat × Option Nat)
  previews : List (Nat × Option Nat)
deriving DecidableEq, Repr

/-- The empty catalog (fresh schema, no rows). -/
def emptyCatalog : Catalog := ⟨[], [], [], [], [], []⟩

/-- Row-id generation: SQLite assigns max existing rowid + 1. -/
def maxId (ids : List Nat) : Nat := ids.foldl max 0

/-- The normalization inlined in both `update_flag` and `update_color_label`
(catalog_service.rs): trim, ASCII-lowercase, and map `""`/`"none"` to NULL. -/
def normalize_enum_text (s : String) : Option String :=
  let lower := toAsciiLower (strTrim s)
  if lower = "" ∨ lower = "none" then none else some lower

/-- Allowed `flag` column values (CHECK constraint of the v4 `images` DDL in
crates/catalog/src/db/migrations.rs). -/
def FLAG_VALUES : List String := ["picked", "rejected"]

/-- Allowed `color_label` column values (same v4 DDL CHECK constraint). -/
def COLOR_LABEL_VALUES : List String :=
  ["red", "yellow", "green", "blue", "purple", "orange", "teal"]

/-- CHECK `flag IN ('picked','rejected') OR flag IS NULL`. -/
def flagCheckOk (v : Option String) : Bool :=
  match v with
  | none => true
  | some s => FLAG_VALUES.contains s

/-- CHECK `color_label IN (...) OR color_label IS NULL`. -/
def colorLabelCheckOk (v : Option String) : Bool :=
  match v with
  | none => true
  | some s => COLOR_LABEL_VALUES.contains s

/-- `CatalogService::update_flag`: normalize, then `UPDATE images SET flag`
(subject to the CHECK constraint). -/
def update_flag (cat : Catalog) (imageId : Nat) (flag : String) : Except String Catalog :=
  let normalized := normalize_enum_text flag
  if flagCheckOk normalized then
    .ok { cat with
          images := cat.images.map fun img =>
            if img.id = imageId then { img with flag := normalized } else img }
  else .error "CHECK constraint failed: images.flag"

/-- `CatalogService::update_color_label`: normalize, then
`UPDATE images SET color_label` (subject to the CHECK constraint). -/
def update_color_label (cat : Catalog) (imageId : Nat) (label : String) : Except String Catalog :=
  let normalized := normalize_enum_text label
  if colorLabelCheckOk normalized then
    .ok { cat with
          images := cat.images.map fun img =>
            if img.id = imageId then { img with colorLabel := normalized } else img }
  else .error "CHECK constraint failed: images.color_label"

/-- One `collection_images` row (crates/catalog/src/db/collection_images.rs).
`addedAt` abstracts the `added_at` timestamp. -/
structure CIRow where
  collectionId : Int
  imageId : Int
  position : Int
  addedAt : Nat
deriving DecidableEq, Repr

/-- The `position` values of one collection, in table order. -/
def collectionPositions (rows : List CIRow) (collectionId : Int) : List Int :=
  (rows.filter fun r => r.collectionId = collectionId).map (·.position)

/-- `Collection::add_image` (collections.rs): `SELECT MAX(position)` over the
collection (NULL treated as 0), then `INSERT OR REPLACE` keyed on
`(collection_id, image_id)`.

Modelled from the spec: the packed DDL file `catalog_schema.sql` is not part
of the sources at hand, so the `(collection_id, image_id)` identity driving
the REPLACE is taken from the spec's description of CollectionImage as the
join of one Collection and one Image (the db layer's `load`/`update`/`delete`
also address rows by exactly this pair). -/
def Collection.add_image (rows : List CIRow) (collectionId imageId : Int) (now : Nat) :
    List CIRow :=
  let next := (collectionPositions rows collectionId).max?.getD 0 + 1
  (rows.filter fun r => ¬ (r.collectionId = collectionId ∧ r.imageId = imageId)) ++
    [⟨collectionId, imageId, next, now⟩]

/-- `CollectionImage::delete` (collection_images.rs). -/
def CollectionImage.delete (rows : List CIRow) (collectionId imageId : Int) : List CIRow :=
  rows.filter fun r => ¬ (r.collectionId = collectionId ∧ r.imageId = imageId)

/-- The dense ordinal sequence `[1, ..., n]` as integers. -/
def denseSeq (n : Nat) : List Int :=
  (List.range n).map fun i : Nat => (i : Int) + 1

/-- A collection's positions form the dense ordinal sequence `1..n`
(as a multiset, i.e. up to table order). -/
def densePositions (rows : List CIRow) (collectionId : Int) : Prop :=
  (collectionPositions rows collectionId).Perm
    (denseSeq (collectionPositions rows collectionId).length)

instance (rows : List CIRow) (collectionId : Int) :
    Decidable (densePositions rows collectionId) := by
  unfold densePositions; infer_instance

/-- One migration step (migrations.rs); the SQL script is abstracted to an
identifier interpreted by an execution oracle. -/
structure Migration where
  source : Int
  target : Int
  sql : Nat
deriving DecidableEq, Repr

/-- The `MIGRATIONS` list of migrations.rs: 1→2, 2→3, 3→4, with the three SQL
scripts numbered 1, 2, 3. -/
def MIGRATIONS : List Migration := [⟨1, 2, 1⟩, ⟨2, 3, 2⟩, ⟨3, 4, 3⟩]

/-- `LATEST_SCHEMA_VERSION` of migrations.rs. -/
def LATEST_SCHEMA_VERSION : Int := 4

/-- Connection state seen by the migration runner: the persisted
`schema_version` plus an abstract identifier for the rest of the schema.
The `catalog_metadata` row is assumed present (guaranteed by
`initialize_schema` before `run_migrations_for_conn` is reached). -/
structure MigDbSt where
  version : Int
  schema : Nat
deriving DecidableEq, Repr

/-- Outcomes of a migration run that are errors in the Rust code, plus
`fuelOut` marking runs on which the Rust `while` loop would not terminate
(impossible when every step has `source < target`). -/
inductive MigError where
  | newer : MigError
  | stepFailed : Int → Int → MigError
  | missingPath : Int → Int → MigError
  | fuelOut : MigError
deriving DecidableEq, Repr

/-- The inner `for` of `run_migrations_for_conn`: the first migration whose
`from` equals the current version. -/
def findStep (migrations : List Migration) (version : Int) : Option Migration :=
  migrations.find? fun m => m.source = version

/-- The `while progressed && version < target` loop of
`run_migrations_for_conn`.  One iteration: find the applicable step, run its
SQL in a transaction (the oracle `exec` returning `none` is a failed
`execute_batch`, answered by `ROLLBACK` and an error), then persist the new
version inside the same transaction and commit.  The returned list records
the `(from, to)` pairs of the successfully committed steps. -/
def migLoop (exec : Nat → Nat → Option Nat) (migrations : List Migration) (target : Int) :
    Nat → MigDbSt → List (Int × Int) → MigDbSt × List (Int × Int) × Option MigError
  | 0, st, applied => (st, applied, some .fuelOut)
  | fuel + 1, st, applied =>
    if st.version < target then
      match findStep migrations st.version with
      | none => (st, applied, none)
      | some m =>
        match exec st.schema m.sql with
        | none => (st, applied, some (.stepFailed m.source m.target))
        | some schema1 =>
          migLoop exec migrations target fuel ⟨m.target, schema1⟩ (applied ++ [(m.source, m.target)])
    else (st, applied, none)

/-- `run_migrations_for_conn` (migrations.rs): read the current version, take
the last migration's `to` as the target (or the current version when the list
is empty), fail as "newer than supported" when above it, run the loop, and
fail as "missing migration path" when the loop stalls below the target.
The fuel `migrations.length + 1` bounds the loop's iterations whenever every
step moves the version strictly forward. -/
def run_migrations_for_conn (exec : Nat → Nat → Option Nat) (migrations : List Migration)
    (st : MigDbSt) : MigDbSt × List (Int × Int) × Option MigError :=
  let target := (migrations.getLast?.map (·.target)).getD st.version
  if st.version > target then (st, [], some .newer)
  else
    let r := migLoop exec migrations target (migrations.length + 1) st []
    match r.2.2 with
    | some e => (r.1, r.2.1, some e)
    | none =>
      if r.1.version ≠ target then (r.1, r.2.1, some (.missingPath r.1.version target))
      else (r.1, r.2.1, none)

/-- Candidate classification (scanner.rs `AssetType`). -/
inductive AssetType where
  | JpegOnly : AssetType
  | RawOnly : AssetType
  | RawWithJpeg : AssetType
deriving DecidableEq, Repr

/-- `ImportCandidate` of scanner.rs: a RAW and/or JPEG path pair. -/
structure ImportCandidate where
  rawPath : Option String
  jpegPath : Option String
  assetType : AssetType
deriving DecidableEq, Repr

/-- `ImportCandidate::primary_path`: the RAW path if present, else JPEG. -/
def ImportCandidate.primary_path (c : ImportCandidate) : Option String :=
  c.rawPath.orElse fun _ => c.jpegPath

/-- `SUPPORTED_RASTER_EXTENSIONS` of scanner.rs. -/
def SUPPORTED_RASTER_EXTENSIONS : List String :=
  ["jpg", "jpeg", "png", "tiff", "tif", "jxl", "heif", "heic"]

/-- `SUPPORTED_RAW_EXTENSIONS` of apps/desktop/src/raw/decoder.rs. -/
def SUPPORTED_RAW_EXTENSIONS : List String :=
  [".raf", ".cr2", ".cr3", ".nef", ".arw", ".orf", ".dng"]

/-- `is_supported_raw_extension` (decoder.rs). -/
def is_supported_raw_extension (ext : String) : Bool :=
  SUPPORTED_RAW_EXTENSIONS.contains (toAsciiLower ext)

/-- One regular file met by the directory walk, already taken apart into the
  path accessors the scanner reads (`parent`, `file_stem`, `extension`).
Directory entries and files without stem or extension are skipped by the walk
(scanner.rs lines 57-80) and are not modelled. -/
structure FileEntry where
  parent : String
  stem : String
  ext : String
deriving DecidableEq, Repr

/-- The full path of a walked file. -/
def entryPath (f : FileEntry) : String := f.parent ++ "/" ++ f.stem ++ "." ++ f.ext

/-- Whether the scanner keeps a file: JPEG, supported RAW, or supported
raster extension (case-insensitive). -/
def entrySupported (f : FileEntry) : Bool :=
  let ext := toAsciiLower f.ext
  (ext = "jpg" ∨ ext = "jpeg") ∨ is_supported_raw_extension ("." ++ ext) ∨
    SUPPORTED_RASTER_EXTENSIONS.any fun cand => toAsciiLower cand = ext

/-- The grouping key: `(parent folder, ASCII-lowercased filename stem)`. -/
def entryKey (f : FileEntry) : String × String := (f.parent, toAsciiLower f.stem)

/-- `map.entry(key).or_insert(default)` followed by the raw/jpeg field
assignment, on the association-list model of the scanner's HashMap. -/
def scanInsert (key : String × String) (isRaw : Bool) (path : String) :
    List ((String × String) × ImportCandidate) → List ((String × String) × ImportCandidate)
  | [] =>
    [(key, if isRaw then ⟨some path, none, .JpegOnly⟩ else ⟨none, some path, .JpegOnly⟩)]
  | (k, c) :: rest =>
    if k = key then
      (k, if isRaw then { c with rawPath := some path } else { c with jpegPath := some path })
        :: rest
    else (k, c) :: scanInsert key isRaw path rest

/-- Processing one walked file: skip unsupported extensions, otherwise record
the path under its grouping key (RAW extensions fill `raw_path`, everything
else fills `jpeg_path`). -/
def scanStepEntry (m : List ((String × String) × ImportCandidate)) (f : FileEntry) :
    List ((String × String) × ImportCandidate) :=
  let ext := toAsciiLower f.ext
  let isJpeg := ext = "jpg" ∨ ext = "jpeg"
  let isRaw := is_supported_raw_extension ("." ++ ext)
  let isSupportedRaster := SUPPORTED_RASTER_EXTENSIONS.any fun cand => toAsciiLower cand = ext
  if ¬ isJpeg ∧ ¬ isRaw ∧ ¬ isSupportedRaster then m
  else scanInsert (entryKey f) isRaw (entryPath f) m

/-- The walk over the directory entries, polling the cancellation flag
between entries (index = number of entries already seen). -/
def scanWalk (cancel : Nat → Bool) :
    List FileEntry → Nat → List ((String × String) × ImportCandidate) →
      List ((String × String) × ImportCandidate)
  | [], _, m => m
  | f :: fs, idx, m =>
    if cancel idx then m else scanWalk cancel fs (idx + 1) (scanStepEntry m f)

/-- The classification pass of scanner.rs: both paths ⇒ RawWithJpeg, RAW only
⇒ RawOnly, otherwise JpegOnly. -/
def classifyCandidate (c : ImportCandidate) : ImportCandidate :=
  match c.rawPath, c.jpegPath with
  | some _, some _ => { c with assetType := .RawWithJpeg }
  | some _, none => { c with assetType := .RawOnly }
  | _, _ => { c with assetType := .JpegOnly }

/-- `scan_folder_for_import` (scanner.rs): group the walked files, classify
each group, and sort the candidates by primary path (empty for a candidate
with no path, as in the Rust `unwrap_or_default`). -/
def scan_folder_for_import (cancel : Nat → Bool) (entries : List FileEntry) :
    List ImportCandidate :=
  let m := scanWalk cancel entries 0 []
  sortByKey
    (fun a b => strLeBool (a.primary_path.getD "") (b.primary_path.getD ""))
    (m.map fun kc => classifyCandidate kc.2)

/-- First-occurrence de-duplication, modelling the contents of the Rust
`HashSet<String>` (set semantics; its iteration order is unspecified, and no
modelled result depends on it). -/
def dedupFirst (l : List String) : List String :=
  l.foldl (fun acc s => if acc.contains s then acc else acc ++ [s]) []

/-- `ImageKeyword::list_keywords_for_image` (image_keywords.rs): the keywords
joined through `image_keywords` for one image, `ORDER BY k.keyword`. -/
def list_keywords_for_image (cat : Catalog) (imageId : Nat) : List (Nat × String) :=
  sortByKey (fun a b => strLeBool a.2 b.2)
    ((cat.imageKeywords.filter fun ik => ik.1 = imageId).filterMap fun ik =>
      cat.keywords.find? fun k => k.1 = ik.2)

/-- `Keyword::get_or_create` (keywords.rs): select by exact text, otherwise
insert with the next rowid and return the new row's id. -/
def Keyword.get_or_create (cat : Catalog) (kw : String) : Catalog × Nat :=
  match cat.keywords.find? fun k => k.2 = kw with
  | some k => (cat, k.1)
  | none =>
    let id := maxId (cat.keywords.map (·.1)) + 1
    ({ cat with keywords := cat.keywords ++ [(id, kw)] }, id)

/-- One iteration of the insert loop of `update_keywords`: upsert the
keyword row and insert the assignment. -/
def insertAssignmentStep (imageId : Nat) (c : Catalog) (kw : String) : Catalog :=
  let ck := Keyword.get_or_create c kw
  { ck.1 with imageKeywords := ck.1.imageKeywords ++ [(imageId, ck.2)] }

/-- The insert half of `update_keywords`: for each desired keyword not yet
assigned, upsert the keyword row and insert the assignment. -/
def updateKeywordsInsert (imageId : Nat) (toAdd : List String) (cat : Catalog) : Catalog :=
  toAdd.foldl (insertAssignmentStep imageId) cat

/-- One iteration of the delete loop of `update_keywords`: drop the
assignment when the keyword's text is not desired. -/
def deleteAssignmentStep (imageId : Nat) (desired : List String) (c : Catalog)
    (k : Nat × String) : Catalog :=
  if desired.contains k.2 then c
  else
    { c with
      imageKeywords := c.imageKeywords.filter fun ik => ¬ (ik.1 = imageId ∧ ik.2 = k.1) }

/-- The delete half of `update_keywords`: drop each previously assigned
keyword whose text is not desired. -/
def updateKeywordsDelete (imageId : Nat) (existing : List (Nat × String))
    (desired : List String) (cat : Catalog) : Catalog :=
  existing.foldl (deleteAssignmentStep imageId desired) cat

/-- `CatalogService::update_keywords` (catalog_service.rs): build the desired
set (trimmed, non-empty), read the current assignments, insert the missing
desired keywords, then delete the no-longer-desired assignments. -/
def update_keywords (cat : Catalog) (imageId : Nat) (keywords : List String) : Catalog :=
  let desired := dedupFirst ((keywords.map strTrim).filter fun s => s ≠ "")
  let existing := list_keywords_for_image cat imageId
  let existingTexts := existing.map (·.2)
  let cat1 :=
    updateKeywordsInsert imageId (desired.filter fun kw => ¬ existingTexts.contains kw) cat
  updateKeywordsDelete imageId existing desired cat1

/-- `CatalogService::add_keyword_to_image` (catalog_service.rs): trim, skip
empties, upsert the keyword row, then `INSERT OR IGNORE` the assignment. -/
def add_keyword_to_image (cat : Catalog) (imageId : Nat) (keyword : String) : Catalog :=
  let kw := strTrim keyword
  if kw = "" then cat
  else
    let ck := Keyword.get_or_create cat kw
    if ck.1.imageKeywords.contains (imageId, ck.2) then ck.1
    else { ck.1 with imageKeywords := ck.1.imageKeywords ++ [(imageId, ck.2)] }

/-- The texts of the keywords assigned to one image (the semantic value the
keyword-reconciliation claims are about), in table order. -/
def assignedTexts (cat : Catalog) (imageId : Nat) : List String :=
  ((cat.imageKeywords.filter fun ik => ik.1 = imageId).filterMap fun ik =>
    cat.keywords.find? fun k => k.1 = ik.2).map (·.2)

/-- The keyword ids assigned to one image, in table order. -/
def assignedIds (cat : Catalog) (imageId : Nat) : List Nat :=
  (cat.imageKeywords.filter fun ik => ik.1 = imageId).map (·.2)

/-- The schema invariants of the keyword tables: unique keyword rowids,
UNIQUE keyword text, primary key on `(image_id, keyword_id)`, and the foreign
key from assignments to keyword rows. -/
def CatalogKeywordsWF (cat : Catalog) : Prop :=
  (cat.keywords.map (·.1)).Nodup ∧ (cat.keywords.map (·.2)).Nodup ∧
  cat.imageKeywords.Nodup ∧
  ∀ p ∈ cat.imageKeywords, (cat.keywords.find? fun k => k.1 = p.2).isSome = true

/-- `CatalogService::find_image_by_hash` / `Image::find_by_hash`: first image
row whose `file_hash` equals the probe (SQL `=` never matches NULL). -/
def find_image_by_hash (cat : Catalog) (hash : String) : Option Image :=
  cat.images.find? fun img => img.fileHash = some hash

/-- `CatalogService::find_image_by_original_path`. -/
def find_image_by_original_path (cat : Catalog) (path : String) : Option Image :=
  cat.images.find? fun img => img.originalPath = path

/-- The filesystem: a finite map from path to abstract file content. -/
abbrev FSt := List (String × Nat)

/-- Reading a file's content. -/
def fsRead (fs : FSt) (path : String) : Option Nat :=
  (fs.find? fun e => e.1 = path).map (·.2)

/-- Creating or overwriting a file (Rust `fs::copy` overwrites). -/
def fsWrite (fs : FSt) (path : String) (content : Nat) : FSt :=
  if fs.any fun e => e.1 = path then
    fs.map fun e => if e.1 = path then (path, content) else e
  else fs ++ [(path, content)]

/-- Deleting a file if present (`fs::remove_file`; failures are only logged). -/
def fsRemove (fs : FSt) (path : String) : FSt :=
  fs.filter fun e => ¬ e.1 = path

/-- `CatalogService::compute_file_hash`: open the file (error when absent)
and hash its whole content with the oracle `hashC` (BLAKE3 in the code). -/
def compute_file_hash (hashC : Nat → String) (fs : FSt) (path : String) : Except String String :=
  match fsRead fs path with
  | none => .error ("failed to open file for hashing: " ++ path)
  | some content => .ok (hashC content)

/-- `Path::parent` as used by `CatalogService::parent_path`, on
'/'-separated absolute paths; a path with no separator falls back to the
pseudo-root "/". -/
def parent_path (path : String) : String :=
  let segs := strSplit path (· = '/')
  if segs.length ≤ 1 then "/" else strIntercalate "/" segs.dropLast

/-- `Path::file_name`: the final path segment ("" when absent). -/
def file_name_of (path : String) : String :=
  ((strSplit path (· = '/')).getLast?).getD ""

/-- `CatalogService::ensure_folder`: get-or-create a folder row by path. -/
def ensure_folder (cat : Catalog) (path : String) : Catalog × Nat :=
  match cat.folders.find? fun f => f.2 = path with
  | some f => (cat, f.1)
  | none =>
    let id := maxId (cat.folders.map (·.1)) + 1
    ({ cat with folders := cat.folders ++ [(id, path)] }, id)

/-- `CatalogService::import_image_at`: read file metadata (error when the
file is absent), ensure the parent folder, hash the content, extract EXIF
(which degrades to no metadata and is elided here), take the filename, and
insert the image row (UNIQUE on `original_path`, from the v4 DDL). -/
def import_image_at (hashC : Nat → String) (cat : Catalog) (fs : FSt) (path : String) :
    Except String (Catalog × Image) :=
  match fsRead fs path with
  | none => .error ("failed to read file metadata for " ++ path)
  | some content =>
    let fc := ensure_folder cat (parent_path path)
    let fileHash := hashC content
    let filename := file_name_of path
    if filename = "" then .error "image path is missing a valid filename"
    else if fc.1.images.any fun img => img.originalPath = path then
      .error "UNIQUE constraint failed: images.original_path"
    else
      let img : Image :=
        { id := maxId (fc.1.images.map (·.id)) + 1
          folderId := fc.2
          filename := filename
          originalPath := path
          sidecarPath := none
          fileHash := some fileHash
          rating := none
          flag := none
          colorLabel := none }
      .ok ({ fc.1 with images := fc.1.images ++ [img] }, img)

/-- `CatalogService::update_sidecar_path`. -/
def update_sidecar_path (cat : Catalog) (imageId : Nat) (sidecar : Option String) : Catalog :=
  { cat with
    images := cat.images.map fun img =>
      if img.id = imageId then { img with sidecarPath := sidecar } else img }

/-- `CatalogService::upsert_thumbnail`. -/
def upsert_thumbnail (cat : Catalog) (imageId : Nat) (t256 t1024 : Option Nat) : Catalog :=
  if cat.thumbnails.any fun t => t.1 = imageId then
    { cat with
      thumbnails := cat.thumbnails.map fun t =>
        if t.1 = imageId then (imageId, t256, t1024) else t }
  else { cat with thumbnails := cat.thumbnails ++ [(imageId, t256, t1024)] }

/-- `CatalogService::upsert_preview_placeholder`. -/
def upsert_preview_placeholder (cat : Catalog) (imageId : Nat) (blob : Option Nat) : Catalog :=
  if cat.previews.any fun t => t.1 = imageId then
    { cat with
      previews := cat.previews.map fun t => if t.1 = imageId then (imageId, blob) else t }
  else { cat with previews := cat.previews ++ [(imageId, blob)] }

/-- The decoder and generator oracles of the import pipeline plus the
cancellation flag (its argument is the poll index within the batch); the
content hash oracle stands for BLAKE3. -/
structure ImportEnv where
  hashContent : Nat → String
  genThumbJpeg : String → Nat → Option Nat
  genPreviewJpeg : String → Nat → Option Nat
  decodeRawThumb : String → Option Nat
  decodeRawPreview : String → Option Nat
  loadForThumb : String → Option Nat
  cancel : Nat → Bool

/-- `store_thumbnails_from_jpeg` (import/mod.rs): generate the two thumbnails
(either generation failing aborts before any write), store them, then
generate and store the preview.  The Bool records overall success. -/
def store_thumbnails_from_jpeg (env : ImportEnv) (cat : Catalog) (imageId : Nat)
    (jpegPath : String) : Catalog × Bool :=
  match env.genThumbJpeg jpegPath 256 with
  | none => (cat, false)
  | some small =>
    match env.genThumbJpeg jpegPath 1024 with
    | none => (cat, false)
    | some large =>
      let cat1 := upsert_thumbnail cat imageId (some small) (some large)
      match env.genPreviewJpeg jpegPath 2048 with
      | none => (cat1, false)
      | some preview => (upsert_preview_placeholder cat1 imageId (some preview), true)

/-- `store_thumbnails_from_raw` (import/mod.rs): decode thumbnail and preview
from the RAW decoder (both before any write), then store both. -/
def store_thumbnails_from_raw (env : ImportEnv) (cat : Catalog) (imageId : Nat)
    (rawPath : String) : Catalog × Bool :=
  match env.decodeRawThumb rawPath with
  | none => (cat, false)
  | some thumb =>
    match env.decodeRawPreview rawPath with
    | none => (cat, false)
    | some preview =>
      let cat1 := upsert_thumbnail cat imageId (some thumb) none
      (upsert_preview_placeholder cat1 imageId (some preview), true)

/-- `CatalogService::generate_thumbnail`: best-effort fallback; a decode
failure stores nothing (and is not an error).  The encoded blobs are
abstracted to the decoded image id. -/
def generate_thumbnail (env : ImportEnv) (cat : Catalog) (imageId : Nat)
    (path : String) : Catalog :=
  match env.loadForThumb path with
  | none => cat
  | some img => upsert_thumbnail cat imageId (some img) (some img)

/-- The thumbnail stage of the import loop: JPEG source preferred; RAW-only
candidates use the RAW decoder with the best-effort fallback on failure.
All failures are logged only. -/
def thumbnailStage (env : ImportEnv) (cat : Catalog) (imageId : Nat)
    (rawPath jpegPath : Option String) : Catalog :=
  match jpegPath with
  | some jp => (store_thumbnails_from_jpeg env cat imageId jp).1
  | none =>
    match rawPath with
    | some rp =>
      let r := store_thumbnails_from_raw env cat imageId rp
      if r.2 then r.1 else generate_thumbnail env r.1 imageId rp
    | none => cat

/-- `ImportMethod` (import/mod.rs). -/
inductive ImportMethod where
  | Add : ImportMethod
  | Copy : ImportMethod
  | Move : ImportMethod
deriving DecidableEq, Repr

/-- `DuplicateStrategy` (import/mod.rs); `Skip` is the default. -/
inductive DuplicateStrategy where
  | Skip : DuplicateStrategy
  | ImportAnyway : DuplicateStrategy
deriving DecidableEq, Repr

/-- `ImportReport` (import/mod.rs); `batchStarted` models whether the
`batch_started_at` option has been set. -/
structure ImportReport where
  imported : Nat
  duplicates : List String
  failed : List (String × String)
  canceled : Bool
  batchStarted : Bool
deriving DecidableEq, Repr

/-- The all-empty `ImportReport::default()`. -/
def emptyReport : ImportReport := ⟨0, [], [], false, false⟩

/-- `PreparedCandidate` (import/mod.rs). -/
structure PreparedCandidate where
  rawPath : Option String
  jpegPath : Option String
  createdPaths : List String
deriving DecidableEq, Repr

/-- `PreparedCandidate::primary_path`. -/
def PreparedCandidate.primary_path (p : PreparedCandidate) : Option String :=
  p.rawPath.orElse fun _ => p.jpegPath

/-- `copy_into_destination` (import/mod.rs): destination path is the
destination directory joined with the source's filename; copying a missing
source fails (directory creation is modelled as always succeeding). -/
def copy_into_destination (fs : FSt) (src destDir : String) :
    Except String (FSt × String) :=
  let filename := file_name_of src
  if filename = "" then .error ("source file is missing a filename: " ++ src)
  else
    let destPath := destDir ++ "/" ++ filename
    match fsRead fs src with
    | none => .error ("failed to copy " ++ src ++ " to " ++ destPath)
    | some content => .ok (fsWrite fs destPath content, destPath)

/-- `prepare_candidate_paths` (import/mod.rs): `Add` keeps the candidate's
paths with nothing created; `Copy`/`Move` copy each present file into the
destination, recording the created paths for rollback. -/
def prepare_candidate_paths (fs : FSt) (c : ImportCandidate) (method : ImportMethod)
    (destDir : Option String) : Except String (FSt × PreparedCandidate) :=
  match method with
  | .Add => .ok (fs, ⟨c.rawPath, c.jpegPath, []⟩)
  | _ =>
    match destDir with
    | none => .error "validated destination directory"
    | some dest =>
      let rawStep : Except String (FSt × Option String × List String) :=
        match c.rawPath with
        | none => .ok (fs, c.rawPath, [])
        | some raw => (copy_into_destination fs raw dest).map fun r => (r.1, some r.2, [r.2])
      match rawStep with
      | .error e => .error e
      | .ok (fs1, rawP, created1) =>
        match c.jpegPath with
        | none => .ok (fs1, ⟨rawP, c.jpegPath, created1⟩)
        | some jpeg =>
          (copy_into_destination fs1 jpeg dest).map fun r =>
            (r.1, ⟨rawP, some r.2, created1 ++ [r.2]⟩)

/-- `cleanup_paths` (import/mod.rs): remove every created file. -/
def cleanup_paths (fs : FSt) (paths : List String) : FSt :=
  paths.foldl fsRemove fs

/-- The `Move`-only source deletion (raw first, then jpeg; failures only
logged). -/
def remove_source_files (fs : FSt) (raw jpeg : Option String) : FSt :=
  let fs1 := match raw with | some r => fsRemove fs r | none => fs
  match jpeg with | some j => fsRemove fs1 j | none => fs1

/-- Catalog-plus-filesystem state threaded through the import loop. -/
structure ImportSt where
  cat : Catalog
  fs : FSt
deriving DecidableEq, Repr

/-- The body of the per-candidate loop of `import_images_with_callbacks`
(after the cancellation poll).  An `Except.error` result aborts the whole
call (in the code, only the `?` after `compute_file_hash`); every other
failure is recorded into the report and the loop continues. -/
def process_candidate (env : ImportEnv) (method : ImportMethod) (strat : DuplicateStrategy)
    (destDir : Option String) (kws : List String) (st : ImportSt) (rep : ImportReport)
    (c : ImportCandidate) : Except String (ImportSt × ImportReport) :=
  match c.primary_path with
  | none => .ok (st, { rep with failed := rep.failed ++ [("", "candidate missing files")] })
  | some primarySource =>
    match compute_file_hash env.hashContent st.fs primarySource with
    | .error _ => .error ("failed to hash file " ++ primarySource)
    | .ok hash =>
      let hashDup := find_image_by_hash st.cat hash
      let rep1 :=
        match hashDup with
        | some _ => { rep with duplicates := rep.duplicates ++ [primarySource] }
        | none => rep
      if hashDup.isSome ∧ strat = .Skip then .ok (st, rep1)
      else
        match prepare_candidate_paths st.fs c method destDir with
        | .error e =>
          .ok (st, { rep1 with failed := rep1.failed ++ [(primarySource, e)] })
        | .ok (fs1, prep) =>
          match prep.primary_path with
          | none =>
            .ok ({ st with fs := cleanup_paths fs1 prep.createdPaths },
              { rep1 with
                failed := rep1.failed ++
                  [(primarySource, "candidate missing files after preparation")] })
          | some targetPath =>
            match find_image_by_original_path st.cat targetPath with
            | some _ =>
              .ok ({ st with fs := cleanup_paths fs1 prep.createdPaths },
                { rep1 with duplicates := rep1.duplicates ++ [targetPath] })
            | none =>
              match import_image_at env.hashContent st.cat fs1 targetPath with
              | .error e =>
                .ok ({ st with fs := cleanup_paths fs1 prep.createdPaths },
                  { rep1 with failed := rep1.failed ++ [(targetPath, "import failed: " ++ e)] })
              | .ok (cat1, img) =>
                let cat2 := update_sidecar_path cat1 img.id prep.jpegPath
                let cat3 := thumbnailStage env cat2 img.id prep.rawPath prep.jpegPath
                let cat4 := kws.foldl (fun c1 kw => add_keyword_to_image c1 img.id kw) cat3
                let fs2 :=
                  if method = .Move then remove_source_files fs1 c.rawPath c.jpegPath else fs1
                .ok (⟨cat4, fs2⟩,
                  { rep1 with imported := rep1.imported + 1, batchStarted := true })

/-- The candidate loop: poll the cancellation flag before each candidate
(breaking marks the report canceled), then process the candidate; a
`process_candidate` error aborts the whole call. -/
def import_loop (env : ImportEnv) (method : ImportMethod) (strat : DuplicateStrategy)
    (destDir : Option String) (kws : List String) :
    List ImportCandidate → Nat → ImportSt → ImportReport →
      ImportSt × Except String ImportReport
  | [], _, st, rep => (st, .ok rep)
  | c :: rest, idx, st, rep =>
    if env.cancel idx then (st, .ok { rep with canceled := true })
    else
      match process_candidate env method strat destDir kws st rep c with
      | .error e => (st, .error e)
      | .ok (st1, rep1) => import_loop env method strat destDir kws rest (idx + 1) st1 rep1

/-- `import_images_with_callbacks` (import/mod.rs): normalize the batch
keywords, validate the destination (required for Copy/Move; its creation is
modelled as succeeding), then run the candidate loop from the empty report. -/
def import_images_with_callbacks (env : ImportEnv) (cat : Catalog) (fs : FSt)
    (candidates : List ImportCandidate) (keywords : List String) (method : ImportMethod)
    (destination : Option String) (strat : DuplicateStrategy) :
    ImportSt × Except String ImportReport :=
  let kws := normalize_keywords keywords
  match method, destination with
  | .Add, _ => import_loop env method strat none kws candidates 0 ⟨cat, fs⟩ emptyReport
  | _, none => (⟨cat, fs⟩, .error "destination directory is required for copy or move")
  | _, some d =>
    import_loop env method strat (some d) kws candidates 0 ⟨cat, fs⟩ emptyReport

/-- The last successfully reached schema version: the `to` of the last
committed step, or the starting version when no step committed. -/
def lastReachedVersion (start : Int) (applied : List (Int × Int)) : Int :=
  ((applied.getLast?).map (·.2)).getD start

/-- Execution oracle that fails exactly on SQL script 9 (the deliberately
failing migration of the rollback scenario). -/
def badExec : Nat → Nat → Option Nat := fun s q => if q = 9 then none else some (s + 1)

/-- Execution oracle on which every SQL script succeeds. -/
def okExec : Nat → Nat → Option Nat := fun s _ => some (s + 1)

/-- Import environment of the cancellation scenarios: hashes are the decimal
rendering of the content, every thumbnail generator fails, and the
cancellation flag is raised from the second poll on (set after N = 1
candidates have been processed). -/
def envC5 : ImportEnv :=
  ⟨fun n => toString n, fun _ _ => none, fun _ _ => none, fun _ => none, fun _ => none,
    fun _ => none, fun i => decide (1 ≤ i)⟩

/-- A JPEG-only import candidate at `/d/a.jpg`. -/
def candA : ImportCandidate := ⟨none, some "/d/a.jpg", .JpegOnly⟩

/-- Filesystem holding the candidate's file. -/
def fsC5 : FSt := [("/d/a.jpg", 7)]

/-- Catalog already holding an image whose stored hash matches the content
of `/d/a.jpg`, recorded at a different original path. -/
def catC5 : Catalog :=
  ⟨[(1, "/old")], [⟨1, 1, "a.jpg", "/old/a.jpg", none, some "7", none, none, none⟩],
    [], [], [], []⟩

/-- The canceled two-candidate Skip-strategy run from the empty catalog. -/
def runC5 : ImportSt × Except String ImportReport :=
  import_images_with_callbacks envC5 emptyCatalog fsC5 [candA, candA] [] .Add none .Skip

/-- Import environment of the re-import scenario: decimal hashes, failing
thumbnail generators, cancellation never requested. -/
def envC1 : ImportEnv :=
  ⟨fun n => toString n, fun _ _ => none, fun _ _ => none, fun _ => none, fun _ => none,
    fun _ => none, fun _ => false⟩

theorem normalizeKeywordsStep_nodup {out : List String} (h : out.Nodup) (kw : String) :
    (normalizeKeywordsStep out kw).Nodup := by
  unfold normalizeKeywordsStep
  by_cases hc : strTrim kw ≠ "" ∧ ¬ out.any (fun existing => existing = strTrim kw)
  · rw [if_pos hc]
    have hnotmem : strTrim kw ∉ out := by
      intro hmem
      exact hc.2 (List.any_eq_true.mpr ⟨strTrim kw, hmem, by simp⟩)
    simp [List.nodup_append, h, hnotmem]
  · rw [if_neg hc]
    exact h

theorem normalizeKeywords_foldl_nodup (l : List String) :
    ∀ acc : List String, acc.Nodup → (l.foldl normalizeKeywordsStep acc).Nodup := by
  induction l with
  | nil => intro acc h; exact h
  | cons x xs ih =>
    intro acc h
    exact ih _ (normalizeKeywordsStep_nodup h x)

/-- C6 counterexample: `parse_keywords` applied to the spec's example input
does not return `["a","b","c"]` (the duplicate `"b"` survives, because
`parse_keywords` itself never de-duplicates). -/
theorem parse_keywords_claim_cx :
    parse_keywords "  a, b\nb ,,c " ≠ ["a", "b", "c"] := by decide

/-- C6 (amended): `parse_keywords` splits on commas and newlines, trims, and
drops empties but keeps duplicates — on the spec's example it returns
`["a","b","b","c"]`; the first-seen-order de-duplication is performed by
`normalize_keywords` (which the import applies to the batch keyword list), so
the composition yields `["a","b","c"]`, and `normalize_keywords` output never
contains duplicates. -/
theorem parse_keywords_then_normalize :
    parse_keywords "  a, b\nb ,,c " = ["a", "b", "b", "c"] ∧
    normalize_keywords (parse_keywords "  a, b\nb ,,c ") = ["a", "b", "c"] ∧
    ∀ l : List String, (normalize_keywords l).Nodup :=
  ⟨by decide, by decide, fun l => normalizeKeywords_foldl_nodup l [] List.nodup_nil⟩

theorem update_flag_ok_sets (cat : Catalog) (imageId : Nat) (s : String) (cat1 : Catalog)
    (h : update_flag cat imageId s = .ok cat1) :
    ∀ img ∈ cat1.images, img.id = imageId → img.flag = normalize_enum_text s := by
  intro img hmem hid
  unfold update_flag at h
  by_cases hc : flagCheckOk (normalize_enum_text s) = true
  · rw [if_pos hc] at h
    cases h
    obtain ⟨x, hx, hxe⟩ := List.mem_map.mp hmem
    by_cases hxid : x.id = imageId
    · rw [if_pos hxid] at hxe
      rw [← hxe]
    · rw [if_neg hxid] at hxe
      exact absurd (hxe ▸ hid) hxid
  · rw [if_neg hc] at h
    exact Except.noConfusion h

theorem update_color_label_ok_sets (cat : Catalog) (imageId : Nat) (s : String) (cat1 : Catalog)
    (h : update_color_label cat imageId s = .ok cat1) :
    ∀ img ∈ cat1.images, img.id = imageId → img.colorLabel = normalize_enum_text s := by
  intro img hmem hid
  unfold update_color_label at h
  by_cases hc : colorLabelCheckOk (normalize_enum_text s) = true
  · rw [if_pos hc] at h
    cases h
    obtain ⟨x, hx, hxe⟩ := List.mem_map.mp hmem
    by_cases hxid : x.id = imageId
    · rw [if_pos hxid] at hxe
      rw [← hxe]
    · rw [if_neg hxid] at hxe
      exact absurd (hxe ▸ hid) hxid
  · rw [if_neg hc] at h
    exact Except.noConfusion h

/-- C10: `update_flag` and `update_color_label` first trim and
ASCII-lowercase their argument and map `""`/`"none"` to NULL
(`normalize_enum_text`); a successful update stores exactly the normalized
value in the image's column, the update succeeds whenever the normalized
value passes the column's CHECK constraint, and concretely `"Red"`
normalizes to `red`, `" None "` and `"  NONE"` clear the column, and
`" Picked "` normalizes to `picked`. -/
theorem update_flag_color_label_normalize :
    (∀ (cat : Catalog) (imageId : Nat) (s : String) (cat1 : Catalog),
      update_flag cat imageId s = .ok cat1 →
      ∀ img ∈ cat1.images, img.id = imageId → img.flag = normalize_enum_text s) ∧
    (∀ (cat : Catalog) (imageId : Nat) (s : String),
      flagCheckOk (normalize_enum_text s) = true →
      ∃ cat1, update_flag cat imageId s = .ok cat1) ∧
    (∀ (cat : Catalog) (imageId : Nat) (s : String) (cat1 : Catalog),
      update_color_label cat imageId s = .ok cat1 →
      ∀ img ∈ cat1.images, img.id = imageId → img.colorLabel = normalize_enum_text s) ∧
    (∀ (cat : Catalog) (imageId : Nat) (s : String),
      colorLabelCheckOk (normalize_enum_text s) = true →
      ∃ cat1, update_color_label cat imageId s = .ok cat1) ∧
    normalize_enum_text "Red" = some "red" ∧
    normalize_enum_text " None " = none ∧
    normalize_enum_text "  NONE" = none ∧
    normalize_enum_text " Picked " = some "picked" := by
  refine ⟨update_flag_ok_sets, ?_, update_color_label_ok_sets, ?_, by decide, by decide,
    by decide, by decide⟩
  · intro cat imageId s hc
    exact ⟨_, by unfold update_flag; rw [if_pos hc]⟩
  · intro cat imageId s hc
    exact ⟨_, by unfold update_color_label; rw [if_pos hc]⟩

/-- C10 witness: applying the theorem at a one-image catalog with the inputs
`"Red"` (color label) and `" Picked "` (flag). -/
theorem update_flag_color_label_normalize_witness :
    (Image.mk 1 1 "a.jpg" "/d/a.jpg" none none none (some "picked") none).flag =
      normalize_enum_text " Picked " ∧
    (Image.mk 1 1 "a.jpg" "/d/a.jpg" none none none none (some "red")).colorLabel =
      normalize_enum_text "Red" :=
  ⟨update_flag_color_label_normalize.1
      (Catalog.mk [] [Image.mk 1 1 "a.jpg" "/d/a.jpg" none none none none none] [] [] [] [])
      1 " Picked "
      (Catalog.mk [] [Image.mk 1 1 "a.jpg" "/d/a.jpg" none none none (some "picked") none]
        [] [] [] [])
      rfl _ (by decide) (by decide),
    update_flag_color_label_normalize.2.2.1
      (Catalog.mk [] [Image.mk 1 1 "a.jpg" "/d/a.jpg" none none none none none] [] [] [] [])
      1 "Red"
      (Catalog.mk [] [Image.mk 1 1 "a.jpg" "/d/a.jpg" none none none none (some "red")]
        [] [] [] [])
      rfl _ (by decide) (by decide)⟩

theorem intLeAntisymm : Std.Antisymm ((· : Int) ≤ ·) := ⟨fun h h' => le_antisymm h h'⟩

theorem max?_eq_of_mem_of_le (l : List Int) (n : Int) (h1 : n ∈ l) (h2 : ∀ b ∈ l, b ≤ n) :
    l.max? = some n := by
  haveI := intLeAntisymm
  rw [List.max?_eq_some_iff (fun a => le_refl a) (fun a b => max_choice a b)
    (fun a b c => max_le_iff)]
  exact ⟨h1, h2⟩

theorem denseSeq_mem (n : Nat) (b : Int) :
    b ∈ denseSeq n ↔ 1 ≤ b ∧ b ≤ n := by
  unfold denseSeq
  simp only [List.mem_map, List.mem_range]
  constructor
  · rintro ⟨i, hi, rfl⟩
    omega
  · intro ⟨h1, h2⟩
    exact ⟨(b - 1).toNat, by omega, by omega⟩

theorem collectionPositions_append_match (rows : List CIRow) (c : Int) (r : CIRow)
    (h : r.collectionId = c) :
    collectionPositions (rows ++ [r]) c = collectionPositions rows c ++ [r.position] := by
  unfold collectionPositions
  rw [List.filter_append]
  simp [List.filter, h]

/-- C9 counterexample: add two images to a collection (positions 1, 2),
remove the first, then append a third.  `add_image` assigns MAX+1 = 3, so the
positions are `[2, 3]` — not the dense sequence `1..n` the claim requires
after an append that follows a removal. -/
theorem add_image_dense_cx :
    ¬ densePositions
        (Collection.add_image
          (CollectionImage.delete
            (Collection.add_image (Collection.add_image [] 1 10 0) 1 11 1) 1 10)
          1 12 2) 1 := by decide

theorem denseSeq_succ (n : Nat) : denseSeq (n + 1) = denseSeq n ++ [(n : Int) + 1] := by
  unfold denseSeq
  rw [List.range_succ, List.map_append]
  rfl

/-- C9 (amended): `add_image` assigns the new row the position
`MAX(position) + 1` (with the empty collection at 0) and does not renumber
existing rows.  Hence the positions of a collection form the dense ordinal
sequence `1..n` as long as rows are only ever appended — the empty collection
is dense, and appending an image not currently in the collection preserves
density — but an append following a removal (or a re-add of a present image)
leaves a gap, as the counterexample shows. -/
theorem add_image_dense_append :
    (∀ c : Int, densePositions [] c) ∧
    (∀ (rows : List CIRow) (c i : Int) (now : Nat),
      (∀ r ∈ rows, ¬ (r.collectionId = c ∧ r.imageId = i)) →
      densePositions rows c → densePositions (Collection.add_image rows c i now) c) := by
  constructor
  · intro c
    simp [densePositions, collectionPositions, denseSeq]
  · intro rows c i now hfresh hdense
    have hfilter :
        (rows.filter fun r => ¬ (r.collectionId = c ∧ r.imageId = i)) = rows := by
      rw [List.filter_eq_self]
      intro r hr
      rw [decide_eq_true_eq]
      exact hfresh r hr
    unfold densePositions at hdense
    have hnext : (collectionPositions rows c).max?.getD 0 + 1 =
        ((collectionPositions rows c).length : Int) + 1 := by
      rcases Nat.eq_zero_or_pos (collectionPositions rows c).length with h0 | hpos
      · rw [List.length_eq_zero] at h0
        rw [h0]
        simp
      · have hmax : (collectionPositions rows c).max? =
            some ((collectionPositions rows c).length : Int) := by
          apply max?_eq_of_mem_of_le
          · rw [hdense.mem_iff, denseSeq_mem]
            exact ⟨by exact_mod_cast hpos, le_refl _⟩
          · intro b hb
            exact ((denseSeq_mem _ b).mp (hdense.mem_iff.mp hb)).2
        rw [hmax]
        rfl
    unfold densePositions Collection.add_image
    rw [hfilter, collectionPositions_append_match rows c
      ⟨c, i, (collectionPositions rows c).max?.getD 0 + 1, now⟩ rfl]
    simp only [hnext]
    have hlen :
        (collectionPositions rows c ++
          [((collectionPositions rows c).length : Int) + 1]).length =
          (collectionPositions rows c).length + 1 := by simp
    rw [hlen, denseSeq_succ]
    exact hdense.append_right _

/-- C9 witness: appending a fresh image to a dense one-row collection via
`add_image` keeps the positions dense. -/
theorem add_image_dense_append_witness :
    densePositions (Collection.add_image [CIRow.mk 1 10 1 0] 1 11 1) 1 :=
  add_image_dense_append.2 [CIRow.mk 1 10 1 0] 1 11 1 (by decide) (by decide)

theorem migLoop_stepFailed (exec : Nat → Nat → Option Nat) (migrations : List Migration)
    (target : Int) :
    ∀ (fuel : Nat) (st : MigDbSt) (applied : List (Int × Int)) (v0 : Int)
      (st1 : MigDbSt) (applied1 : List (Int × Int)) (f t : Int),
      st.version = lastReachedVersion v0 applied →
      migLoop exec migrations target fuel st applied = (st1, applied1, some (.stepFailed f t)) →
      st1.version = f ∧ st1.version = lastReachedVersion v0 applied1 ∧
        ∃ m ∈ migrations, m.source = f ∧ m.target = t ∧ exec st1.schema m.sql = none := by
  intro fuel
  induction fuel with
  | zero =>
    intro st applied v0 st1 applied1 f t _ h
    simp only [migLoop] at h
    cases h
  | succ fuel ih =>
    intro st applied v0 st1 applied1 f t hver h
    simp only [migLoop] at h
    by_cases hlt : st.version < target
    · rw [if_pos hlt] at h
      cases hfind : findStep migrations st.version with
      | none =>
        simp only [hfind] at h
        cases h
      | some m =>
        simp only [hfind] at h
        have hf : migrations.find? (fun mm => decide (mm.source = st.version)) = some m := hfind
        have hmsrc : m.source = st.version := by
          have hpm := List.find?_some hf
          simpa using hpm
        cases hexec : exec st.schema m.sql with
        | none =>
          simp only [hexec] at h
          cases h
          exact ⟨hmsrc.symm, hver, m, List.mem_of_find?_eq_some hf, rfl, rfl, hexec⟩
        | some schema1 =>
          simp only [hexec] at h
          have hver1 : (MigDbSt.mk m.target schema1).version =
              lastReachedVersion v0 (applied ++ [(m.source, m.target)]) := by
            unfold lastReachedVersion
            simp
          exact ih _ _ v0 st1 applied1 f t hver1 h
    · rw [if_neg hlt] at h
      cases h

/-- C2: when a migration step's SQL fails, `run_migrations_for_conn` returns
the step-failure error and the connection is left exactly at the last
successfully reached version: the reported state's version equals the
failing step's `from` (never its `to`), it equals the `to` of the last
committed step (or the start version when none committed), and the failing
SQL was attempted on precisely the returned schema state — the failed step's
transaction contributed nothing.  Concretely, appending a deliberately
failing step `4 → 5` to `MIGRATIONS` and running from version 4 errors and
leaves the state at version 4: before == after. -/
theorem migration_step_failure_rolls_back :
    (∀ (exec : Nat → Nat → Option Nat) (migrations : List Migration) (st st1 : MigDbSt)
        (applied : List (Int × Int)) (f t : Int),
      run_migrations_for_conn exec migrations st = (st1, applied, some (.stepFailed f t)) →
      st1.version = f ∧ st1.version = lastReachedVersion st.version applied ∧
        ∃ m ∈ migrations, m.source = f ∧ m.target = t ∧ exec st1.schema m.sql = none) ∧
    run_migrations_for_conn badExec (MIGRATIONS ++ [Migration.mk 4 5 9]) (MigDbSt.mk 4 0) =
      (MigDbSt.mk 4 0, [], some (.stepFailed 4 5)) := by
  constructor
  · intro exec migs st st1 applied f t h
    unfold run_migrations_for_conn at h
    by_cases hgt : st.version > (migs.getLast?.map (·.target)).getD st.version
    · rw [if_pos hgt] at h
      cases h
    · rw [if_neg hgt] at h
      rcases hml : migLoop exec migs ((migs.getLast?.map (·.target)).getD st.version)
          (migs.length + 1) st [] with ⟨st2, applied2, e⟩
      rw [hml] at h
      cases e with
      | none =>
        simp only at h
        by_cases hne : st2.version ≠ (migs.getLast?.map (·.target)).getD st.version
        · rw [if_pos hne] at h
          cases h
        · rw [if_neg hne] at h
          cases h
      | some e1 =>
        simp only at h
        injection h with ha hrest
        injection hrest with hb hc
        injection hc with he
        subst ha
        subst hb
        subst he
        exact migLoop_stepFailed exec migs _ (migs.length + 1) st [] st.version
          st2 applied2 f t rfl hml
  · decide

/-- C2 witness: the general rollback statement applied to the deliberately
failing appended step. -/
theorem migration_step_failure_rolls_back_witness :
    (MigDbSt.mk 4 0).version = 4 ∧
    (MigDbSt.mk 4 0).version = lastReachedVersion (MigDbSt.mk 4 0).version [] ∧
    ∃ m ∈ MIGRATIONS ++ [Migration.mk 4 5 9], m.source = 4 ∧ m.target = 5 ∧
      badExec (MigDbSt.mk 4 0).schema m.sql = none :=
  migration_step_failure_rolls_back.1 badExec (MIGRATIONS ++ [Migration.mk 4 5 9])
    (MigDbSt.mk 4 0) (MigDbSt.mk 4 0) [] 4 5 (by decide)

/-- C3: with every SQL script succeeding, running the migration loop on the
build's `MIGRATIONS` list from any supported version `1 ≤ v ≤ 4` succeeds and
leaves the stored schema version at exactly the target 4 (the last
migration's `to`); starting already at the target commits no migration step.
When the current version exceeds the target the run fails fatally with the
"newer than supported" error before touching anything.  Starting at version 0,
from which no forward chain reaches the target, fails with the
"missing migration path" (broken migration graph) error.  And in general a
run that returns no error has reached exactly the target version. -/
theorem migrations_reach_target :
    (∀ (exec : Nat → Nat → Option Nat), (∀ s q, (exec s q).isSome = true) →
      ∀ (s0 : Nat) (v : Int), 1 ≤ v → v ≤ LATEST_SCHEMA_VERSION →
        (run_migrations_for_conn exec MIGRATIONS ⟨v, s0⟩).2.2 = none ∧
        (run_migrations_for_conn exec MIGRATIONS ⟨v, s0⟩).1.version = LATEST_SCHEMA_VERSION ∧
        (v = LATEST_SCHEMA_VERSION →
          (run_migrations_for_conn exec MIGRATIONS ⟨v, s0⟩).2.1 = [])) ∧
    (∀ (exec : Nat → Nat → Option Nat) (migrations : List Migration) (st : MigDbSt),
      st.version > (migrations.getLast?.map (·.target)).getD st.version →
      run_migrations_for_conn exec migrations st = (st, [], some .newer)) ∧
    (∀ (exec : Nat → Nat → Option Nat) (s0 : Nat),
      run_migrations_for_conn exec MIGRATIONS ⟨0, s0⟩ =
        (⟨0, s0⟩, [], some (.missingPath 0 4))) ∧
    (∀ (exec : Nat → Nat → Option Nat) (migrations : List Migration) (st : MigDbSt),
      (run_migrations_for_conn exec migrations st).2.2 = none →
      (run_migrations_for_conn exec migrations st).1.version =
        (migrations.getLast?.map (·.target)).getD st.version) := by
  refine ⟨?_, ?_, ?_, ?_⟩
  · intro exec hex s0 v h1 h2
    have h2' : v ≤ (4 : Int) := h2
    have hv : v = 1 ∨ v = 2 ∨ v = 3 ∨ v = 4 := by omega
    obtain ⟨s1, hs1⟩ := Option.isSome_iff_exists.mp (hex s0 1)
    obtain ⟨s2, hs2⟩ := Option.isSome_iff_exists.mp (hex s1 2)
    obtain ⟨s3, hs3⟩ := Option.isSome_iff_exists.mp (hex s2 3)
    obtain ⟨s2', hs2'⟩ := Option.isSome_iff_exists.mp (hex s0 2)
    obtain ⟨s3', hs3'⟩ := Option.isSome_iff_exists.mp (hex s2' 3)
    obtain ⟨s3'', hs3''⟩ := Option.isSome_iff_exists.mp (hex s0 3)
    rcases hv with rfl | rfl | rfl | rfl
    · refine ⟨?_, ?_, ?_⟩
      · simp [run_migrations_for_conn, migLoop, findStep, MIGRATIONS, hs1, hs2, hs3]
      · simp [run_migrations_for_conn, migLoop, findStep, MIGRATIONS, hs1, hs2, hs3,
          LATEST_SCHEMA_VERSION]
      · intro hv4
        exact absurd hv4 (by decide)
    · refine ⟨?_, ?_, ?_⟩
      · simp [run_migrations_for_conn, migLoop, findStep, MIGRATIONS, hs2', hs3']
      · simp [run_migrations_for_conn, migLoop, findStep, MIGRATIONS, hs2', hs3',
          LATEST_SCHEMA_VERSION]
      · intro hv4
        exact absurd hv4 (by decide)
    · refine ⟨?_, ?_, ?_⟩
      · simp [run_migrations_for_conn, migLoop, findStep, MIGRATIONS, hs3'']
      · simp [run_migrations_for_conn, migLoop, findStep, MIGRATIONS, hs3'',
          LATEST_SCHEMA_VERSION]
      · intro hv4
        exact absurd hv4 (by decide)
    · refine ⟨?_, ?_, ?_⟩
      · simp [run_migrations_for_conn, migLoop, findStep, MIGRATIONS]
      · simp [run_migrations_for_conn, migLoop, findStep, MIGRATIONS, LATEST_SCHEMA_VERSION]
      · intro _
        simp [run_migrations_for_conn, migLoop, findStep, MIGRATIONS]
  · intro exec migs st h
    unfold run_migrations_for_conn
    rw [if_pos h]
  · intro exec s0
    simp [run_migrations_for_conn, migLoop, findStep, MIGRATIONS]
  · intro exec migs st h
    unfold run_migrations_for_conn at h ⊢
    by_cases hgt : st.version > (migs.getLast?.map (·.target)).getD st.version
    · rw [if_pos hgt] at h
      simp at h
    · rw [if_neg hgt] at h ⊢
      rcases hml : migLoop exec migs ((migs.getLast?.map (·.target)).getD st.version)
          (migs.length + 1) st [] with ⟨st2, applied2, e⟩
      rw [hml] at h
      cases e with
      | none =>
        simp only at h ⊢
        by_cases hne : st2.version ≠ (migs.getLast?.map (·.target)).getD st.version
        · rw [if_pos hne] at h
          simp at h
        · rw [if_neg hne] at h ⊢
          push_neg at hne
          exact hne
      | some e1 =>
        simp only at h
        exact Option.noConfusion h

/-- C3 witness: the theorem applied with the always-succeeding oracle at
versions 2 and 4, at the too-new version 5, and its success-soundness part at
version 2. -/
theorem migrations_reach_target_witness :
    (run_migrations_for_conn okExec MIGRATIONS ⟨2, 0⟩).2.2 = none ∧
    (run_migrations_for_conn okExec MIGRATIONS ⟨2, 0⟩).1.version = LATEST_SCHEMA_VERSION ∧
    (run_migrations_for_conn okExec MIGRATIONS ⟨4, 5⟩).2.1 = [] ∧
    run_migrations_for_conn okExec MIGRATIONS ⟨5, 0⟩ =
      (⟨5, 0⟩, [], some .newer) ∧
    (run_migrations_for_conn okExec MIGRATIONS ⟨2, 0⟩).1.version =
      ((MIGRATIONS.getLast?.map (·.target)).getD (2 : Int)) :=
  ⟨(migrations_reach_target.1 okExec (fun _ _ => rfl) 0 2 (by decide) (by decide)).1,
    (migrations_reach_target.1 okExec (fun _ _ => rfl) 0 2 (by decide) (by decide)).2.1,
    (migrations_reach_target.1 okExec (fun _ _ => rfl) 5 4 (by decide) (by decide)).2.2 (by decide),
    migrations_reach_target.2.1 okExec MIGRATIONS ⟨5, 0⟩ (by decide),
    migrations_reach_target.2.2.2 okExec MIGRATIONS ⟨2, 0⟩ (by decide)⟩

theorem insertByKey_perm (le : α → α → Bool) (x : α) :
    ∀ l : List α, (insertByKey le x l).Perm (x :: l) := by
  intro l
  induction l with
  | nil => simp [insertByKey]
  | cons y ys ih =>
    unfold insertByKey
    by_cases hc : le y x = true
    · rw [if_pos hc]
      exact (ih.cons y).trans (List.Perm.swap x y ys)
    · rw [if_neg hc]

theorem sortByKey_foldl_perm (le : α → α → Bool) :
    ∀ (l acc : List α), (l.foldl (fun a x => insertByKey le x a) acc).Perm (acc ++ l) := by
  intro l
  induction l with
  | nil => intro acc; simp
  | cons x xs ih =>
    intro acc
    have h1 := ih (insertByKey le x acc)
    have h2 : (insertByKey le x acc ++ xs).Perm ((x :: acc) ++ xs) :=
      (insertByKey_perm le x acc).append_right xs
    have h3 : ((x :: acc) ++ xs).Perm (acc ++ x :: xs) :=
      List.perm_middle.symm
    exact (h1.trans h2).trans h3

theorem sortByKey_perm (le : α → α → Bool) (l : List α) : (sortByKey le l).Perm l := by
  unfold sortByKey
  simpa using sortByKey_foldl_perm le l []

theorem scanWalk_no_cancel (entries : List FileEntry) :
    ∀ (idx : Nat) (m : List ((String × String) × ImportCandidate)),
      scanWalk (fun _ => false) entries idx m = entries.foldl scanStepEntry m := by
  induction entries with
  | nil => intro idx m; rfl
  | cons f fs ih =>
    intro idx m
    simp only [scanWalk, List.foldl_cons, if_neg]
    exact ih (idx + 1) (scanStepEntry m f)

theorem scanStepEntry_unsupported (m : List ((String × String) × ImportCandidate))
    (f : FileEntry) (h : entrySupported f = false) : scanStepEntry m f = m := by
  unfold scanStepEntry
  unfold entrySupported at h
  rw [decide_eq_false_iff_not] at h
  push_neg at h
  rw [if_pos]
  exact ⟨not_or.mpr ⟨h.1.1, h.1.2⟩, h.2.1, h.2.2⟩

theorem foldl_scanStep_filter (entries : List FileEntry) :
    ∀ m, entries.foldl scanStepEntry m =
      (entries.filter entrySupported).foldl scanStepEntry m := by
  induction entries with
  | nil => intro m; rfl
  | cons f fs ih =>
    intro m
    cases hf : entrySupported f with
    | true =>
      simp only [List.foldl_cons, List.filter_cons, hf, if_true]
      exact ih (scanStepEntry m f)
    | false =>
      simp only [List.foldl_cons, List.filter_cons, hf, Bool.false_eq_true, if_false,
        scanStepEntry_unsupported m f hf]
      exact ih m

theorem scanInsert_keys (key : String × String) (isRaw : Bool) (path : String) :
    ∀ m : List ((String × String) × ImportCandidate),
      (scanInsert key isRaw path m).map (·.1) =
        if (m.map (·.1)).contains key then m.map (·.1) else m.map (·.1) ++ [key] := by
  intro m
  induction m with
  | nil => simp [scanInsert]
  | cons kc rest ih =>
    unfold scanInsert
    by_cases hk : kc.1 = key
    · rw [if_pos hk]
      simp [hk]
    · rw [if_neg hk]
      have hkk : (key == kc.1) = false := beq_eq_false_iff_ne.mpr (Ne.symm hk)
      simp only [List.map_cons, ih, List.contains_cons, hkk, Bool.false_or]
      by_cases hmem : (rest.map (·.1)).contains key = true
      · rw [if_pos hmem, if_pos hmem]
      · rw [if_neg hmem, if_neg hmem]
        simp

theorem scanInsert_keys_nodup (key : String × String) (isRaw : Bool) (path : String)
    (m : List ((String × String) × ImportCandidate)) (h : (m.map (·.1)).Nodup) :
    ((scanInsert key isRaw path m).map (·.1)).Nodup := by
  rw [scanInsert_keys]
  by_cases hmem : (m.map (·.1)).contains key = true
  · rw [if_pos hmem]
    exact h
  · rw [if_neg hmem]
    have hnot : key ∉ m.map (·.1) := by
      intro hk
      exact hmem (List.elem_eq_true_of_mem hk)
    simp [List.nodup_append, h, hnot]

theorem scanStepEntry_keys_nodup (m : List ((String × String) × ImportCandidate))
    (f : FileEntry) (h : (m.map (·.1)).Nodup) :
    ((scanStepEntry m f).map (·.1)).Nodup := by
  unfold scanStepEntry
  by_cases hc : (¬ (toAsciiLower f.ext = "jpg" ∨ toAsciiLower f.ext = "jpeg") ∧
      ¬ is_supported_raw_extension ("." ++ toAsciiLower f.ext) = true ∧
      ¬ (SUPPORTED_RASTER_EXTENSIONS.any fun cand =>
          toAsciiLower cand = toAsciiLower f.ext) = true)
  · rw [if_pos hc]
    exact h
  · rw [if_neg hc]
    exact scanInsert_keys_nodup _ _ _ m h

theorem scanWalk_keys_nodup (cancel : Nat → Bool) (entries : List FileEntry) :
    ∀ (idx : Nat) (m : List ((String × String) × ImportCandidate)),
      (m.map (·.1)).Nodup → ((scanWalk cancel entries idx m).map (·.1)).Nodup := by
  induction entries with
  | nil => intro idx m h; exact h
  | cons f fs ih =>
    intro idx m h
    unfold scanWalk
    by_cases hc : cancel idx = true
    · rw [if_pos hc]
      exact h
    · rw [if_neg hc]
      exact ih (idx + 1) _ (scanStepEntry_keys_nodup m f h)

/-- C8: the scanner groups supported files by (parent folder,
case-insensitive stem).  Concretely, `DSC_0001.NEF` + `DSC_0001.JPG` +
`note.txt` in one folder yield exactly one candidate, classified RawWithJpeg
with both paths set and the `.txt` ignored.  In general: files with
unsupported extensions contribute nothing to the scan; every produced
candidate is classified RawWithJpeg exactly when both paths are set (RawOnly
exactly when only the RAW path is set); each candidate's primary path is its
RAW path if present, else its JPEG path; and the walk keeps one group per
key — the grouping keys are pairwise distinct and the final candidate list
has exactly one candidate per group. -/
theorem scanner_groups_and_classifies :
    scan_folder_for_import (fun _ => false)
      [FileEntry.mk "/d" "DSC_0001" "NEF", FileEntry.mk "/d" "DSC_0001" "JPG",
        FileEntry.mk "/d" "note" "txt"] =
      [ImportCandidate.mk (some "/d/DSC_0001.NEF") (some "/d/DSC_0001.JPG") .RawWithJpeg] ∧
    (∀ entries : List FileEntry,
      scan_folder_for_import (fun _ => false) entries =
        scan_folder_for_import (fun _ => false) (entries.filter entrySupported)) ∧
    (∀ (cancel : Nat → Bool) (entries : List FileEntry) (c : ImportCandidate),
      c ∈ scan_folder_for_import cancel entries →
      ((c.assetType = .RawWithJpeg ↔ c.rawPath.isSome = true ∧ c.jpegPath.isSome = true) ∧
        (c.assetType = .RawOnly ↔ c.rawPath.isSome = true ∧ c.jpegPath.isSome = false))) ∧
    (∀ c : ImportCandidate,
      c.primary_path = (match c.rawPath with | some r => some r | none => c.jpegPath)) ∧
    (∀ (cancel : Nat → Bool) (entries : List FileEntry),
      ((scanWalk cancel entries 0 []).map (·.1)).Nodup ∧
      (scan_folder_for_import cancel entries).length = (scanWalk cancel entries 0 []).length) := by
  refine ⟨by decide, ?_, ?_, ?_, ?_⟩
  · intro entries
    unfold scan_folder_for_import
    rw [scanWalk_no_cancel entries 0 [], scanWalk_no_cancel (entries.filter entrySupported) 0 [],
      foldl_scanStep_filter]
  · intro cancel entries c hmem
    unfold scan_folder_for_import at hmem
    have hperm := sortByKey_perm
      (fun a b => strLeBool (a.primary_path.getD "") (b.primary_path.getD ""))
      ((scanWalk cancel entries 0 []).map fun kc => classifyCandidate kc.2)
    obtain ⟨kc, _, hc⟩ := List.mem_map.mp (hperm.mem_iff.mp hmem)
    subst hc
    unfold classifyCandidate
    cases hr : kc.2.rawPath with
    | some r =>
      cases hj : kc.2.jpegPath with
      | some j => simp [hr, hj]
      | none => simp [hr, hj]
    | none =>
      cases hj : kc.2.jpegPath with
      | some j => simp [hr, hj]
      | none => simp [hr, hj]
  · intro c
    cases c with
    | mk r j t => cases r <;> rfl
  · intro cancel entries
    refine ⟨scanWalk_keys_nodup cancel entries 0 [] (by simp), ?_⟩
    unfold scan_folder_for_import
    rw [(sortByKey_perm _ _).length_eq, List.length_map]

/-- C8 witness: the classification part applied to the candidate produced by
scanning the RAW+JPEG pair. -/
theorem scanner_groups_and_classifies_witness :
    ((ImportCandidate.mk (some "/d/DSC_0001.NEF") (some "/d/DSC_0001.JPG")
        .RawWithJpeg).assetType = .RawWithJpeg ↔
      (ImportCandidate.mk (some "/d/DSC_0001.NEF") (some "/d/DSC_0001.JPG")
        .RawWithJpeg).rawPath.isSome = true ∧
      (ImportCandidate.mk (some "/d/DSC_0001.NEF") (some "/d/DSC_0001.JPG")
        .RawWithJpeg).jpegPath.isSome = true) ∧
    ((ImportCandidate.mk (some "/d/DSC_0001.NEF") (some "/d/DSC_0001.JPG")
        .RawWithJpeg).assetType = .RawOnly ↔
      (ImportCandidate.mk (some "/d/DSC_0001.NEF") (some "/d/DSC_0001.JPG")
        .RawWithJpeg).rawPath.isSome = true ∧
      (ImportCandidate.mk (some "/d/DSC_0001.NEF") (some "/d/DSC_0001.JPG")
        .RawWithJpeg).jpegPath.isSome = false) :=
  scanner_groups_and_classifies.2.2.1 (fun _ => false)
    [FileEntry.mk "/d" "DSC_0001" "NEF", FileEntry.mk "/d" "DSC_0001" "JPG"]
    (ImportCandidate.mk (some "/d/DSC_0001.NEF") (some "/d/DSC_0001.JPG") .RawWithJpeg)
    (by decide)

theorem foldl_max_init_le (l : List Nat) : ∀ b : Nat, b ≤ l.foldl max b := by
  induction l with
  | nil => intro b; exact le_refl b
  | cons x xs ih => intro b; exact le_trans (le_max_left b x) (ih (max b x))

theorem foldl_max_ge_mem (l : List Nat) :
    ∀ (b i : Nat), i ∈ l → i ≤ l.foldl max b := by
  induction l with
  | nil => intro b i h; cases h
  | cons x xs ih =>
    intro b i h
    rcases List.mem_cons.mp h with rfl | hmem
    · exact le_trans (le_max_right b i) (foldl_max_init_le xs (max b i))
    · exact ih (max b x) i hmem

theorem maxId_succ_fresh (ids : List Nat) : maxId ids + 1 ∉ ids := by
  intro h
  have := foldl_max_ge_mem ids 0 (maxId ids + 1) h
  unfold maxId at *
  omega

theorem find?_by_id_of_mem (l : List (Nat × String)) (hids : (l.map (·.1)).Nodup) :
    ∀ k ∈ l, l.find? (fun x => x.1 = k.1) = some k := by
  induction l with
  | nil => intro k h; cases h
  | cons a rest ih =>
    intro k hk
    rcases List.mem_cons.mp hk with rfl | hmem
    · simp [List.find?_cons]
    · rw [List.find?_cons]
      have ha : (decide (a.1 = k.1)) = false := by
        rw [decide_eq_false_iff_not]
        intro heq
        have : k.1 ∈ rest.map (·.1) := List.mem_map.mpr ⟨k, hmem, rfl⟩
        rw [List.map_cons] at hids
        exact (List.nodup_cons.mp hids).1 (heq ▸ this)
      rw [ha]
      have hids' : (rest.map (·.1)).Nodup := by
        rw [List.map_cons] at hids
        exact (List.nodup_cons.mp hids).2
      exact ih hids' k hmem

theorem mem_eq_of_id_nodup (l : List (Nat × String)) (hids : (l.map (·.1)).Nodup)
    (k k' : Nat × String) (hk : k ∈ l) (hk' : k' ∈ l) (heq : k.1 = k'.1) : k = k' := by
  have h1 := find?_by_id_of_mem l hids k hk
  have h2 := find?_by_id_of_mem l hids k' hk'
  rw [heq] at h1
  rw [h1] at h2
  exact Option.some.inj h2

theorem map_snd_filter_fst_nodup (img : Nat) :
    ∀ l : List (Nat × Nat), l.Nodup → ((l.filter fun p => p.1 = img).map (·.2)).Nodup := by
  intro l
  induction l with
  | nil => intro _; simp
  | cons p rest ih =>
    intro h
    obtain ⟨hp, hrest⟩ := List.nodup_cons.mp h
    rw [List.filter_cons]
    by_cases hpi : p.1 = img
    · rw [if_pos (by simpa using hpi)]
      rw [List.map_cons, List.nodup_cons]
      refine ⟨?_, ih hrest⟩
      intro hmem
      obtain ⟨q, hq, hq2⟩ := List.mem_map.mp hmem
      obtain ⟨hq', hq1⟩ := List.mem_filter.mp hq
      have : q = p := by
        have hq1' : q.1 = img := by simpa using hq1
        calc q = (q.1, q.2) := rfl
          _ = (p.1, p.2) := by rw [hq1', hpi, hq2]
          _ = p := rfl
      exact hp (this ▸ hq')
    · rw [if_neg (by simpa using hpi)]
      exact ih hrest

theorem mem_assignedTexts (cat : Catalog) (img : Nat) (t : String) :
    t ∈ assignedTexts cat img ↔
      ∃ p ∈ cat.imageKeywords, p.1 = img ∧
        ∃ k, (cat.keywords.find? fun k' => k'.1 = p.2) = some k ∧ k.2 = t := by
  unfold assignedTexts
  simp only [List.mem_map, List.mem_filterMap, List.mem_filter, decide_eq_true_eq]
  constructor
  · rintro ⟨k, ⟨p, ⟨hp, hpi⟩, hfind⟩, ht⟩
    exact ⟨p, hp, hpi, k, hfind, ht⟩
  · rintro ⟨p, hp, hpi, k, hfind, ht⟩
    exact ⟨k, ⟨p, ⟨hp, hpi⟩, hfind⟩, ht⟩

theorem get_or_create_spec (cat : Catalog) (kw : String)
    (hids : (cat.keywords.map (·.1)).Nodup) (htxt : (cat.keywords.map (·.2)).Nodup) :
    (Keyword.get_or_create cat kw).1.imageKeywords = cat.imageKeywords ∧
    ((Keyword.get_or_create cat kw).1.keywords.find?
        fun k => k.1 = (Keyword.get_or_create cat kw).2) =
      some ((Keyword.get_or_create cat kw).2, kw) ∧
    (∀ kid : Nat, (cat.keywords.find? fun k => k.1 = kid).isSome = true →
      ((Keyword.get_or_create cat kw).1.keywords.find? fun k => k.1 = kid) =
        cat.keywords.find? fun k => k.1 = kid) ∧
    ((Keyword.get_or_create cat kw).1.keywords.map (·.1)).Nodup ∧
    ((Keyword.get_or_create cat kw).1.keywords.map (·.2)).Nodup ∧
    ((cat.keywords.find? fun k => k.1 = (Keyword.get_or_create cat kw).2) =
        some ((Keyword.get_or_create cat kw).2, kw) ∨
      (Keyword.get_or_create cat kw).2 ∉ cat.keywords.map (·.1)) := by
  cases hfind : cat.keywords.find? (fun k => k.2 = kw) with
  | some k =>
    have hgc : Keyword.get_or_create cat kw = (cat, k.1) := by
      unfold Keyword.get_or_create
      rw [hfind]
    rw [hgc]
    have hk2 : k.2 = kw := by
      have := List.find?_some hfind
      simpa using this
    have hkeq : k = (k.1, kw) := by
      rw [← hk2]
    have hbyid := find?_by_id_of_mem cat.keywords hids k (List.mem_of_find?_eq_some hfind)
    exact ⟨rfl, hbyid.trans (congrArg some hkeq), fun kid _ => rfl, hids, htxt,
      Or.inl (hbyid.trans (congrArg some hkeq))⟩
  | none =>
    have hgc : Keyword.get_or_create cat kw =
        ({ cat with keywords := cat.keywords ++ [(maxId (cat.keywords.map (·.1)) + 1, kw)] },
          maxId (cat.keywords.map (·.1)) + 1) := by
      unfold Keyword.get_or_create
      rw [hfind]
    rw [hgc]
    have hfresh : maxId (cat.keywords.map (·.1)) + 1 ∉ cat.keywords.map (·.1) :=
      maxId_succ_fresh _
    have hnone_id :
        (cat.keywords.find? fun k => k.1 = maxId (cat.keywords.map (·.1)) + 1) = none := by
      rw [List.find?_eq_none]
      intro x hx
      simp only [decide_eq_true_eq]
      intro heq
      exact hfresh (heq ▸ List.mem_map.mpr ⟨x, hx, rfl⟩)
    have hkwnotin : kw ∉ cat.keywords.map (·.2) := by
      intro hmem
      obtain ⟨x, hx, hx2⟩ := List.mem_map.mp hmem
      have := List.find?_eq_none.mp hfind x hx
      simp [hx2] at this
    refine ⟨rfl, ?_, ?_, ?_, ?_, Or.inr hfresh⟩
    · rw [List.find?_append, hnone_id]
      simp [List.find?_cons]
    · intro kid hsome
      rw [List.find?_append]
      cases h' : cat.keywords.find? (fun k => k.1 = kid) with
      | some v => simp [h']
      | none =>
        rw [h'] at hsome
        simp at hsome
    · simp only [List.map_append]
      simp [List.nodup_append, hids, hfresh]
    · simp only [List.map_append]
      simp [List.nodup_append, htxt, hkwnotin]

theorem insertAssignmentStep_spec (img : Nat) (c : Catalog) (kw : String)
    (hids : (c.keywords.map (·.1)).Nodup) (htxt : (c.keywords.map (·.2)).Nodup)
    (hik : c.imageKeywords.Nodup)
    (hvalid : ∀ p ∈ c.imageKeywords, (c.keywords.find? fun k => k.1 = p.2).isSome = true)
    (hnot : kw ∉ assignedTexts c img) :
    ((insertAssignmentStep img c kw).keywords.map (·.1)).Nodup ∧
    ((insertAssignmentStep img c kw).keywords.map (·.2)).Nodup ∧
    (insertAssignmentStep img c kw).imageKeywords.Nodup ∧
    (∀ p ∈ (insertAssignmentStep img c kw).imageKeywords,
      ((insertAssignmentStep img c kw).keywords.find? fun k => k.1 = p.2).isSome = true) ∧
    (∀ t, t ∈ assignedTexts (insertAssignmentStep img c kw) img ↔
      t ∈ assignedTexts c img ∨ t = kw) ∧
    (∀ p ∈ c.imageKeywords, p ∈ (insertAssignmentStep img c kw).imageKeywords) ∧
    (∀ p ∈ (insertAssignmentStep img c kw).imageKeywords,
      p ∈ c.imageKeywords ∨ (p.1 = img ∧
        ((insertAssignmentStep img c kw).keywords.find? fun k => k.1 = p.2) =
          some (p.2, kw))) ∧
    (∃ p ∈ (insertAssignmentStep img c kw).imageKeywords, p.1 = img ∧
      ((insertAssignmentStep img c kw).keywords.find? fun k => k.1 = p.2) =
        some (p.2, kw)) ∧
    (∀ kid : Nat, (c.keywords.find? fun k => k.1 = kid).isSome = true →
      ((insertAssignmentStep img c kw).keywords.find? fun k => k.1 = kid) =
        c.keywords.find? fun k => k.1 = kid) := by
  obtain ⟨hikw, hfindid, hstab, hids', htxt', hdisj⟩ := get_or_create_spec c kw hids htxt
  have hsik : (insertAssignmentStep img c kw).imageKeywords =
      c.imageKeywords ++ [(img, (Keyword.get_or_create c kw).2)] := by
    show (Keyword.get_or_create c kw).1.imageKeywords ++
        [(img, (Keyword.get_or_create c kw).2)] =
      c.imageKeywords ++ [(img, (Keyword.get_or_create c kw).2)]
    rw [hikw]
  have hskw : (insertAssignmentStep img c kw).keywords =
      (Keyword.get_or_create c kw).1.keywords := rfl
  have hfreshpair : (img, (Keyword.get_or_create c kw).2) ∉ c.imageKeywords := by
    intro hmem
    rcases hdisj with hl | hr
    · exact hnot ((mem_assignedTexts c img kw).mpr
        ⟨(img, (Keyword.get_or_create c kw).2), hmem, rfl,
          ((Keyword.get_or_create c kw).2, kw), hl, rfl⟩)
    · have hs := hvalid _ hmem
      obtain ⟨k', hk'⟩ := Option.isSome_iff_exists.mp hs
      have hk'1 : k'.1 = (Keyword.get_or_create c kw).2 := by
        have := List.find?_some hk'
        simpa using this
      exact hr (hk'1 ▸ List.mem_map.mpr ⟨k', List.mem_of_find?_eq_some hk', rfl⟩)
  refine ⟨hskw ▸ hids', hskw ▸ htxt', ?_, ?_, ?_, ?_, ?_, ?_, ?_⟩
  · rw [hsik]
    simp [List.nodup_append, hik, hfreshpair]
  · intro p hp
    rw [hsik] at hp
    rcases List.mem_append.mp hp with hmem | hnew
    · rw [hskw, hstab p.2 (hvalid p hmem)]
      exact hvalid p hmem
    · have : p = (img, (Keyword.get_or_create c kw).2) := by simpa using hnew
      rw [this, hskw]
      simp only
      rw [hfindid]
      rfl
  · intro t
    constructor
    · intro ht
      obtain ⟨p, hp, hpi, k, hfind, hkt⟩ := (mem_assignedTexts _ img t).mp ht
      rw [hsik] at hp
      rcases List.mem_append.mp hp with hmem | hnew
      · left
        rw [hskw, hstab p.2 (hvalid p hmem)] at hfind
        exact (mem_assignedTexts c img t).mpr ⟨p, hmem, hpi, k, hfind, hkt⟩
      · right
        have hpe : p = (img, (Keyword.get_or_create c kw).2) := by simpa using hnew
        rw [hpe, hskw] at hfind
        simp only at hfind
        rw [hfindid] at hfind
        rw [← hkt, (Option.some.inj hfind).symm]
    · intro ht
      rcases ht with hold | hkweq
      · obtain ⟨p, hp, hpi, k, hfind, hkt⟩ := (mem_assignedTexts c img t).mp hold
        refine (mem_assignedTexts _ img t).mpr ⟨p, ?_, hpi, k, ?_, hkt⟩
        · rw [hsik]
          exact List.mem_append_left _ hp
        · rw [hskw, hstab p.2 (by rw [hfind]; rfl)]
          exact hfind
      · rw [hkweq]
        refine (mem_assignedTexts _ img kw).mpr
          ⟨(img, (Keyword.get_or_create c kw).2), ?_, rfl,
            ((Keyword.get_or_create c kw).2, kw), ?_, rfl⟩
        · rw [hsik]
          exact List.mem_append_right _ (by simp)
        · rw [hskw]
          simp only
          exact hfindid
  · intro p hp
    rw [hsik]
    exact List.mem_append_left _ hp
  · intro p hp
    rw [hsik] at hp
    rcases List.mem_append.mp hp with hmem | hnew
    · exact Or.inl hmem
    · have hpe : p = (img, (Keyword.get_or_create c kw).2) := by simpa using hnew
      right
      rw [hpe, hskw]
      exact ⟨rfl, hfindid⟩
  · refine ⟨(img, (Keyword.get_or_create c kw).2), ?_, rfl, ?_⟩
    · rw [hsik]
      exact List.mem_append_right _ (by simp)
    · rw [hskw]
      exact hfindid
  · intro kid hkid
    rw [hskw]
    exact hstab kid hkid

theorem updateKeywordsInsert_spec (img : Nat) (toAdd : List String) :
    ∀ c : Catalog,
      (c.keywords.map (·.1)).Nodup → (c.keywords.map (·.2)).Nodup →
      c.imageKeywords.Nodup →
      (∀ p ∈ c.imageKeywords, (c.keywords.find? fun k => k.1 = p.2).isSome = true) →
      toAdd.Nodup → (∀ kw ∈ toAdd, kw ∉ assignedTexts c img) →
      ((updateKeywordsInsert img toAdd c).keywords.map (·.1)).Nodup ∧
      ((updateKeywordsInsert img toAdd c).keywords.map (·.2)).Nodup ∧
      (updateKeywordsInsert img toAdd c).imageKeywords.Nodup ∧
      (∀ p ∈ (updateKeywordsInsert img toAdd c).imageKeywords,
        ((updateKeywordsInsert img toAdd c).keywords.find? fun k => k.1 = p.2).isSome = true) ∧
      (∀ t, t ∈ assignedTexts (updateKeywordsInsert img toAdd c) img ↔
        t ∈ assignedTexts c img ∨ t ∈ toAdd) ∧
      (∀ p ∈ c.imageKeywords, p ∈ (updateKeywordsInsert img toAdd c).imageKeywords) ∧
      (∀ p ∈ (updateKeywordsInsert img toAdd c).imageKeywords,
        p ∈ c.imageKeywords ∨ (p.1 = img ∧ ∃ t ∈ toAdd,
          ((updateKeywordsInsert img toAdd c).keywords.find? fun k => k.1 = p.2) =
            some (p.2, t))) ∧
      (∀ t ∈ toAdd, ∃ p ∈ (updateKeywordsInsert img toAdd c).imageKeywords, p.1 = img ∧
        ((updateKeywordsInsert img toAdd c).keywords.find? fun k => k.1 = p.2) =
          some (p.2, t)) ∧
      (∀ kid : Nat, (c.keywords.find? fun k => k.1 = kid).isSome = true →
        ((updateKeywordsInsert img toAdd c).keywords.find? fun k => k.1 = kid) =
          c.keywords.find? fun k => k.1 = kid) := by
  induction toAdd with
  | nil =>
    intro c hids htxt hik hvalid _ _
    refine ⟨hids, htxt, hik, hvalid, ?_, ?_, ?_, ?_, ?_⟩
    · intro t
      simp [updateKeywordsInsert]
    · intro p hp
      exact hp
    · intro p hp
      exact Or.inl hp
    · intro t ht
      cases ht
    · intro kid _
      rfl
  | cons kw rest ih =>
    intro c hids htxt hik hvalid hnodup hnot
    obtain ⟨sids, stxt, sik, svalid, sT, sM1, sM2, sB, sS⟩ :=
      insertAssignmentStep_spec img c kw hids htxt hik hvalid
        (hnot kw (List.mem_cons_self kw rest))
    have hrestnot : ∀ t ∈ rest, t ∉ assignedTexts (insertAssignmentStep img c kw) img := by
      intro t ht hmem
      rcases (sT t).mp hmem with hold | rfl
      · exact hnot t (List.mem_cons_of_mem kw ht) hold
      · exact (List.nodup_cons.mp hnodup).1 ht
    obtain ⟨iids, itxt, iik, ivalid, iT, iM1, iM2, iB, iS⟩ :=
      ih (insertAssignmentStep img c kw) sids stxt sik svalid
        (List.nodup_cons.mp hnodup).2 hrestnot
    have hfold : updateKeywordsInsert img (kw :: rest) c =
        updateKeywordsInsert img rest (insertAssignmentStep img c kw) := rfl
    rw [hfold]
    refine ⟨iids, itxt, iik, ivalid, ?_, ?_, ?_, ?_, ?_⟩
    · intro t
      rw [iT t]
      constructor
      · intro h
        rcases h with hs | hr
        · rcases (sT t).mp hs with hc | rfl
          · exact Or.inl hc
          · exact Or.inr (List.mem_cons_self t rest)
        · exact Or.inr (List.mem_cons_of_mem kw hr)
      · intro h
        rcases h with hc | hcr
        · exact Or.inl ((sT t).mpr (Or.inl hc))
        · rcases List.mem_cons.mp hcr with rfl | hr
          · exact Or.inl ((sT t).mpr (Or.inr rfl))
          · exact Or.inr hr
    · intro p hp
      exact iM1 p (sM1 p hp)
    · intro p hp
      rcases iM2 p hp with hs | ⟨hpi, t, ht, hfind⟩
      · rcases sM2 p hs with hc | ⟨hpi, hfind⟩
        · exact Or.inl hc
        · refine Or.inr ⟨hpi, kw, List.mem_cons_self kw rest, ?_⟩
          rw [iS p.2 (by rw [hfind]; rfl)]
          exact hfind
      · exact Or.inr ⟨hpi, t, List.mem_cons_of_mem kw ht, hfind⟩
    · intro t ht
      rcases List.mem_cons.mp ht with rfl | hr
      · obtain ⟨p, hp, hpi, hfind⟩ := sB
        refine ⟨p, iM1 p hp, hpi, ?_⟩
        rw [iS p.2 (by rw [hfind]; rfl)]
        exact hfind
      · exact iB t hr
    · intro kid hkid
      rw [iS kid (by rw [sS kid hkid]; exact hkid)]
      exact sS kid hkid

theorem updateKeywordsDelete_spec (img : Nat) (desired : List String)
    (existing : List (Nat × String)) :
    ∀ c : Catalog,
      (updateKeywordsDelete img existing desired c).keywords = c.keywords ∧
      (updateKeywordsDelete img existing desired c).folders = c.folders ∧
      (c.imageKeywords.Nodup → (updateKeywordsDelete img existing desired c).imageKeywords.Nodup) ∧
      (∀ p : Nat × Nat, p ∈ (updateKeywordsDelete img existing desired c).imageKeywords ↔
        p ∈ c.imageKeywords ∧
          ¬ (p.1 = img ∧ ∃ k ∈ existing, k.1 = p.2 ∧ desired.contains k.2 = false)) := by
  induction existing with
  | nil =>
    intro c
    refine ⟨rfl, rfl, fun h => h, ?_⟩
    intro p
    simp [updateKeywordsDelete]
  | cons k ks ih =>
    intro c
    have hfold : updateKeywordsDelete img (k :: ks) desired c =
        updateKeywordsDelete img ks desired (deleteAssignmentStep img desired c k) := rfl
    rw [hfold]
    by_cases hc : desired.contains k.2 = true
    · have hstep : deleteAssignmentStep img desired c k = c := by
        unfold deleteAssignmentStep
        rw [if_pos hc]
      rw [hstep]
      obtain ⟨ikw, ifld, inodup, imem⟩ := ih c
      refine ⟨ikw, ifld, inodup, ?_⟩
      intro p
      rw [imem p]
      constructor
      · rintro ⟨hp, hno⟩
        refine ⟨hp, ?_⟩
        rintro ⟨hpi, k', hk', hk'1, hk'c⟩
        rcases List.mem_cons.mp hk' with rfl | hmem
        · rw [hc] at hk'c
          cases hk'c
        · exact hno ⟨hpi, k', hmem, hk'1, hk'c⟩
      · rintro ⟨hp, hno⟩
        refine ⟨hp, ?_⟩
        rintro ⟨hpi, k', hk', hk'1, hk'c⟩
        exact hno ⟨hpi, k', List.mem_cons_of_mem k hk', hk'1, hk'c⟩
    · have hcf : desired.contains k.2 = false := by
        cases h' : desired.contains k.2 with
        | true => exact absurd h' hc
        | false => rfl
      have hstep : deleteAssignmentStep img desired c k =
          { c with
            imageKeywords := c.imageKeywords.filter fun ik => ¬ (ik.1 = img ∧ ik.2 = k.1) } := by
        unfold deleteAssignmentStep
        rw [if_neg hc]
      rw [hstep]
      obtain ⟨ikw, ifld, inodup, imem⟩ := ih
        { c with
          imageKeywords := c.imageKeywords.filter fun ik => ¬ (ik.1 = img ∧ ik.2 = k.1) }
      refine ⟨ikw, ifld, ?_, ?_⟩
      · intro h
        exact inodup (List.Nodup.filter _ h)
      · intro p
        rw [imem p]
        simp only [List.mem_filter, decide_eq_true_eq]
        constructor
        · rintro ⟨⟨hp, hnk⟩, hno⟩
          refine ⟨hp, ?_⟩
          rintro ⟨hpi, k', hk', hk'1, hk'c⟩
          rcases List.mem_cons.mp hk' with rfl | hmem
          · exact hnk ⟨hpi, hk'1.symm⟩
          · exact hno ⟨hpi, k', hmem, hk'1, hk'c⟩
        · rintro ⟨hp, hno⟩
          refine ⟨⟨hp, ?_⟩, ?_⟩
          · rintro ⟨hpi, hpk⟩
            exact hno ⟨hpi, k, List.mem_cons_self k ks, hpk.symm, hcf⟩
          · rintro ⟨hpi, k', hk', hk'1, hk'c⟩
            exact hno ⟨hpi, k', List.mem_cons_of_mem k hk', hk'1, hk'c⟩

theorem dedupFirst_foldl_mem (l : List String) :
    ∀ (acc : List String) (t : String),
      t ∈ l.foldl (fun acc s => if acc.contains s then acc else acc ++ [s]) acc ↔
        t ∈ acc ∨ t ∈ l := by
  induction l with
  | nil =>
    intro acc t
    simp
  | cons s rest ih =>
    intro acc t
    simp only [List.foldl_cons]
    by_cases hc : acc.contains s = true
    · rw [if_pos hc, ih acc t]
      constructor
      · intro h
        rcases h with h | h
        · exact Or.inl h
        · exact Or.inr (List.mem_cons_of_mem s h)
      · intro h
        rcases h with h | h
        · exact Or.inl h
        · rcases List.mem_cons.mp h with rfl | h'
          · exact Or.inl (List.mem_of_elem_eq_true hc)
          · exact Or.inr h'
    · rw [if_neg hc, ih (acc ++ [s]) t]
      simp only [List.mem_append, List.mem_singleton, List.mem_cons]
      tauto

theorem dedupFirst_mem (l : List String) (t : String) : t ∈ dedupFirst l ↔ t ∈ l := by
  unfold dedupFirst
  rw [dedupFirst_foldl_mem l [] t]
  simp

theorem dedupFirst_foldl_nodup (l : List String) :
    ∀ acc : List String, acc.Nodup →
      (l.foldl (fun acc s => if acc.contains s then acc else acc ++ [s]) acc).Nodup := by
  induction l with
  | nil => intro acc h; exact h
  | cons s rest ih =>
    intro acc h
    simp only [List.foldl_cons]
    by_cases hc : acc.contains s = true
    · rw [if_pos hc]
      exact ih acc h
    · rw [if_neg hc]
      refine ih (acc ++ [s]) ?_
      have hnot : s ∉ acc := fun hmem => hc (List.elem_eq_true_of_mem hmem)
      simp [List.nodup_append, h, hnot]

theorem dedupFirst_nodup (l : List String) : (dedupFirst l).Nodup :=
  dedupFirst_foldl_nodup l [] List.nodup_nil

theorem mem_list_keywords_for_image (cat : Catalog) (img : Nat) (k : Nat × String) :
    k ∈ list_keywords_for_image cat img ↔
      ∃ p ∈ cat.imageKeywords, p.1 = img ∧
        (cat.keywords.find? fun k' => k'.1 = p.2) = some k := by
  unfold list_keywords_for_image
  rw [(sortByKey_perm _ _).mem_iff]
  simp only [List.mem_filterMap, List.mem_filter, decide_eq_true_eq]
  constructor
  · rintro ⟨p, ⟨hp, hpi⟩, hfind⟩
    exact ⟨p, hp, hpi, hfind⟩
  · rintro ⟨p, hp, hpi, hfind⟩
    exact ⟨p, ⟨hp, hpi⟩, hfind⟩

theorem mem_existing_texts_iff_assigned (cat : Catalog) (img : Nat) (t : String) :
    t ∈ (list_keywords_for_image cat img).map (·.2) ↔ t ∈ assignedTexts cat img := by
  rw [mem_assignedTexts]
  constructor
  · intro h
    obtain ⟨k, hk, hk2⟩ := List.mem_map.mp h
    obtain ⟨p, hp, hpi, hfind⟩ := (mem_list_keywords_for_image cat img k).mp hk
    exact ⟨p, hp, hpi, k, hfind, hk2⟩
  · rintro ⟨p, hp, hpi, k, hfind, hk2⟩
    exact List.mem_map.mpr
      ⟨k, (mem_list_keywords_for_image cat img k).mpr ⟨p, hp, hpi, hfind⟩, hk2⟩

/-- C7: on a catalog satisfying the keyword-table invariants,
`update_keywords image desired` reconciles the image's assignments to exactly
the trimmed, non-empty elements of `desired`: a keyword text is assigned
afterwards iff it appears (trimmed, non-empty) in `desired` — missing desired
keywords were inserted and no-longer-desired assignments deleted — the image
never ends up with two assignments of the same keyword, and the invariants
(unique keyword ids and texts, unique assignment pairs, assignments
referencing live keyword rows) are preserved. -/
theorem update_keywords_reconciles :
    ∀ (cat : Catalog) (imageId : Nat) (keywords : List String),
      CatalogKeywordsWF cat →
      (∀ t : String,
        t ∈ assignedTexts (update_keywords cat imageId keywords) imageId ↔
          t ∈ (keywords.map strTrim).filter fun s => s ≠ "") ∧
      (assignedIds (update_keywords cat imageId keywords) imageId).Nodup ∧
      CatalogKeywordsWF (update_keywords cat imageId keywords) := by
  intro cat imageId keywords hwf
  obtain ⟨hids, htxt, hik, hvalid⟩ := hwf
  have hrw : update_keywords cat imageId keywords =
      updateKeywordsDelete imageId (list_keywords_for_image cat imageId)
        (dedupFirst ((keywords.map strTrim).filter fun s => s ≠ ""))
        (updateKeywordsInsert imageId
          ((dedupFirst ((keywords.map strTrim).filter fun s => s ≠ "")).filter
            fun kw => ¬ ((list_keywords_for_image cat imageId).map (·.2)).contains kw)
          cat) := rfl
  rw [hrw]
  set D := dedupFirst ((keywords.map strTrim).filter fun s => s ≠ "") with hD
  set existing := list_keywords_for_image cat imageId with hE
  set toAdd := D.filter fun kw => ¬ (existing.map (·.2)).contains kw with hA
  have htoAddnodup : toAdd.Nodup := (dedupFirst_nodup _).filter _
  have htoAddnot : ∀ kw ∈ toAdd, kw ∉ assignedTexts cat imageId := by
    intro kw hkw hassigned
    have hpred := (List.mem_filter.mp hkw).2
    rw [decide_eq_true_eq] at hpred
    exact hpred (List.elem_eq_true_of_mem
      ((mem_existing_texts_iff_assigned cat imageId kw).mpr hassigned))
  obtain ⟨iids, itxt, iik, ivalid, iT, iM1, iM2, iB, iS⟩ :=
    updateKeywordsInsert_spec imageId toAdd cat hids htxt hik hvalid htoAddnodup htoAddnot
  obtain ⟨dkw, dfld, dnod, dmem⟩ :=
    updateKeywordsDelete_spec imageId D existing (updateKeywordsInsert imageId toAdd cat)
  refine ⟨?_, ?_, ?_⟩
  · intro t
    constructor
    · intro ht
      obtain ⟨p, hp, hpi, k, hfind, hkt⟩ := (mem_assignedTexts _ imageId t).mp ht
      rw [dkw] at hfind
      obtain ⟨hp1, hno⟩ := (dmem p).mp hp
      rcases iM2 p hp1 with hold | ⟨hpi', t', ht', hfind'⟩
      · have hstab := iS p.2 (hvalid p hold)
        rw [hstab] at hfind
        have hkex : k ∈ existing :=
          (mem_list_keywords_for_image cat imageId k).mpr ⟨p, hold, hpi, hfind⟩
        have hk1 : k.1 = p.2 := by
          have := List.find?_some hfind
          simpa using this
        have hcont : D.contains k.2 = true := by
          cases hcc : D.contains k.2 with
          | true => rfl
          | false => exact absurd ⟨hpi, k, hkex, hk1, hcc⟩ hno
        rw [← hkt]
        exact (dedupFirst_mem _ k.2).mp (List.mem_of_elem_eq_true hcont)
      · rw [hfind'] at hfind
        have hke : k = (p.2, t') := (Option.some.inj hfind).symm
        rw [← hkt, hke]
        exact (dedupFirst_mem _ t').mp (List.mem_filter.mp ht').1
    · intro ht
      have htD : t ∈ D := (dedupFirst_mem _ t).mpr ht
      by_cases hex : t ∈ existing.map (·.2)
      · obtain ⟨k, hkex, hk2⟩ := List.mem_map.mp hex
        obtain ⟨p, hp, hpi, hfind⟩ := (mem_list_keywords_for_image cat imageId k).mp hkex
        have hk1 : k.1 = p.2 := by
          have := List.find?_some hfind
          simpa using this
        have hkmem : k ∈ cat.keywords := List.mem_of_find?_eq_some hfind
        refine (mem_assignedTexts _ imageId t).mpr ⟨p, ?_, hpi, k, ?_, hk2⟩
        · refine (dmem p).mpr ⟨iM1 p hp, ?_⟩
          rintro ⟨hpi', k', hk'ex, hk'1, hk'c⟩
          obtain ⟨q, hq, hqi, hfind'⟩ :=
            (mem_list_keywords_for_image cat imageId k').mp hk'ex
          have hk'mem : k' ∈ cat.keywords := List.mem_of_find?_eq_some hfind'
          have hkk : k' = k :=
            mem_eq_of_id_nodup cat.keywords hids k' k hk'mem hkmem (hk'1.trans hk1.symm)
          rw [hkk, hk2] at hk'c
          have hcontr : D.contains t = true := List.elem_eq_true_of_mem htD
          rw [hcontr] at hk'c
          cases hk'c
        · rw [dkw, iS p.2 (by rw [hfind]; rfl)]
          exact hfind
      · have htadd : t ∈ toAdd := by
          refine List.mem_filter.mpr ⟨htD, ?_⟩
          rw [decide_eq_true_eq]
          intro hcc
          exact hex (List.mem_of_elem_eq_true hcc)
        obtain ⟨q, hq, hqi, hfind⟩ := iB t htadd
        refine (mem_assignedTexts _ imageId t).mpr ⟨q, ?_, hqi, (q.2, t), ?_, rfl⟩
        · refine (dmem q).mpr ⟨hq, ?_⟩
          rintro ⟨hqi', k', hk'ex, hk'1, hk'c⟩
          obtain ⟨p', hp', hpi', hfind'⟩ :=
            (mem_list_keywords_for_image cat imageId k').mp hk'ex
          have hk'mem : k' ∈ cat.keywords := List.mem_of_find?_eq_some hfind'
          have hbyid := find?_by_id_of_mem cat.keywords hids k' hk'mem
          have hstab := iS k'.1 (by rw [hbyid]; rfl)
          rw [hbyid] at hstab
          rw [hk'1] at hstab
          rw [hfind] at hstab
          have hk'eq : k' = (q.2, t) := (Option.some.inj hstab).symm
          apply hex
          refine List.mem_map.mpr ⟨k', hk'ex, ?_⟩
          rw [hk'eq]
        · rw [dkw]
          exact hfind
  · have hfin := dnod iik
    unfold assignedIds
    exact map_snd_filter_fst_nodup imageId _ hfin
  · refine ⟨?_, ?_, dnod iik, ?_⟩
    · rw [dkw]
      exact iids
    · rw [dkw]
      exact itxt
    · intro p hp
      rw [dkw]
      exact ivalid p ((dmem p).mp hp).1

/-- C7 witness: reconciliation applied to a one-image catalog that has `sky`
assigned, with desired list `["  sky ", "", "mountain", "sky"]`. -/
theorem update_keywords_reconciles_witness :
    ("mountain" ∈ assignedTexts
        (update_keywords (Catalog.mk [] [] [(1, "sky")] [(7, 1)] [] []) 7
          ["  sky ", "", "mountain", "sky"]) 7 ↔
      "mountain" ∈ ((["  sky ", "", "mountain", "sky"].map strTrim).filter
        fun s => s ≠ "")) ∧
    (assignedIds (update_keywords (Catalog.mk [] [] [(1, "sky")] [(7, 1)] [] []) 7
      ["  sky ", "", "mountain", "sky"]) 7).Nodup :=
  ⟨(update_keywords_reconciles (Catalog.mk [] [] [(1, "sky")] [(7, 1)] [] []) 7
      ["  sky ", "", "mountain", "sky"]
      (by unfold CatalogKeywordsWF; decide)).1 "mountain",
    (update_keywords_reconciles (Catalog.mk [] [] [(1, "sky")] [(7, 1)] [] []) 7
      ["  sky ", "", "mountain", "sky"]
      (by unfold CatalogKeywordsWF; decide)).2.1⟩

theorem ensure_folder_images (cat : Catalog) (path : String) :
    (ensure_folder cat path).1.images = cat.images := by
  unfold ensure_folder
  cases h : cat.folders.find? fun f => f.2 = path <;> simp [h]

theorem get_or_create_images (cat : Catalog) (kw : String) :
    (Keyword.get_or_create cat kw).1.images = cat.images := by
  unfold Keyword.get_or_create
  cases h : cat.keywords.find? fun k => k.2 = kw <;> simp [h]

theorem upsert_thumbnail_images (cat : Catalog) (imageId : Nat) (a b : Option Nat) :
    (upsert_thumbnail cat imageId a b).images = cat.images := by
  unfold upsert_thumbnail
  split <;> rfl

theorem upsert_preview_images (cat : Catalog) (imageId : Nat) (a : Option Nat) :
    (upsert_preview_placeholder cat imageId a).images = cat.images := by
  unfold upsert_preview_placeholder
  split <;> rfl

theorem store_thumbnails_from_jpeg_images (env : ImportEnv) (cat : Catalog) (imageId : Nat)
    (jp : String) : (store_thumbnails_from_jpeg env cat imageId jp).1.images = cat.images := by
  unfold store_thumbnails_from_jpeg
  cases env.genThumbJpeg jp 256 with
  | none => rfl
  | some a =>
    cases env.genThumbJpeg jp 1024 with
    | none => rfl
    | some b =>
      cases env.genPreviewJpeg jp 2048 with
      | none => simp [upsert_thumbnail_images]
      | some c => simp [upsert_preview_images, upsert_thumbnail_images]

theorem store_thumbnails_from_raw_images (env : ImportEnv) (cat : Catalog) (imageId : Nat)
    (rp : String) : (store_thumbnails_from_raw env cat imageId rp).1.images = cat.images := by
  unfold store_thumbnails_from_raw
  cases env.decodeRawThumb rp with
  | none => rfl
  | some a =>
    cases env.decodeRawPreview rp with
    | none => rfl
    | some b => simp [upsert_preview_images, upsert_thumbnail_images]

theorem generate_thumbnail_images (env : ImportEnv) (cat : Catalog) (imageId : Nat)
    (path : String) : (generate_thumbnail env cat imageId path).images = cat.images := by
  unfold generate_thumbnail
  cases env.loadForThumb path with
  | none => rfl
  | some a => simp [upsert_thumbnail_images]

theorem thumbnailStage_images (env : ImportEnv) (cat : Catalog) (imageId : Nat)
    (rawPath jpegPath : Option String) :
    (thumbnailStage env cat imageId rawPath jpegPath).images = cat.images := by
  unfold thumbnailStage
  cases jpegPath with
  | some jp => simp [store_thumbnails_from_jpeg_images]
  | none =>
    cases rawPath with
    | none => rfl
    | some rp =>
      by_cases h : (store_thumbnails_from_raw env cat imageId rp).2 = true
      · simp [h, store_thumbnails_from_raw_images]
      · simp [h, generate_thumbnail_images, store_thumbnails_from_raw_images]

theorem add_keyword_to_image_images (cat : Catalog) (imageId : Nat) (kw : String) :
    (add_keyword_to_image cat imageId kw).images = cat.images := by
  unfold add_keyword_to_image
  by_cases h : strTrim kw = ""
  · rw [if_pos h]
  · rw [if_neg h]
    by_cases h2 : (Keyword.get_or_create cat (strTrim kw)).1.imageKeywords.contains
        (imageId, (Keyword.get_or_create cat (strTrim kw)).2) = true
    · rw [if_pos h2]
      exact get_or_create_images cat (strTrim kw)
    · rw [if_neg h2]
      show (Keyword.get_or_create cat (strTrim kw)).1.images = cat.images
      exact get_or_create_images cat (strTrim kw)

theorem foldl_add_keyword_images (imageId : Nat) (kws : List String) :
    ∀ cat : Catalog,
      (kws.foldl (fun c1 kw => add_keyword_to_image c1 imageId kw) cat).images = cat.images := by
  induction kws with
  | nil => intro cat; rfl
  | cons kw rest ih =>
    intro cat
    simp only [List.foldl_cons]
    rw [ih (add_keyword_to_image cat imageId kw)]
    exact add_keyword_to_image_images cat imageId kw

theorem map_if_id_fresh (f : Image → Image) (n : Nat) :
    ∀ l : List Image, n ∉ l.map (·.id) →
      (l.map fun x => if x.id = n then f x else x) = l := by
  intro l
  induction l with
  | nil => intro _; rfl
  | cons x xs ih =>
    intro h
    simp only [List.map_cons, List.mem_cons] at h
    push_neg at h
    rw [List.map_cons, if_neg ?hx, ih h.2]
    case hx =>
      intro heq
      exact h.1 heq.symm

/-- C4 counterexample: with one candidate whose primary file cannot be opened
for hashing (the filesystem is empty), the whole import call returns an
error — no report is produced, so the failure is not recorded in any
report's failed list and the batch does not continue. -/
theorem hash_failure_recorded_claim_cx :
    (import_images_with_callbacks
        ⟨fun n => toString n, fun _ _ => none, fun _ _ => none, fun _ => none, fun _ => none,
          fun _ => none, fun _ => false⟩
        emptyCatalog [] [ImportCandidate.mk none (some "/d/a.jpg") .JpegOnly] []
        .Add none .Skip).2 =
      .error "failed to hash file /d/a.jpg" := rfl

/-- C4 (amended): a hashing failure is NOT a per-item recoverable error: when
hashing a candidate's primary file fails, `import_images_with_callbacks`
aborts the entire batch at that candidate with an error (the Rust `?` after
`compute_file_hash`), leaving the catalog and filesystem as they were at the
start of that iteration; nothing is appended to the report's failed list and
later candidates are not processed. -/
theorem hash_failure_aborts_import :
    (∀ (env : ImportEnv) (method : ImportMethod) (strat : DuplicateStrategy)
        (destDir : Option String) (kws : List String) (cand : ImportCandidate)
        (rest : List ImportCandidate) (idx : Nat) (st : ImportSt) (rep : ImportReport)
        (p : String),
      env.cancel idx = false → cand.primary_path = some p → fsRead st.fs p = none →
      import_loop env method strat destDir kws (cand :: rest) idx st rep =
        (st, .error ("failed to hash file " ++ p))) ∧
    (∀ (env : ImportEnv) (strat : DuplicateStrategy) (kws : List String)
        (cand : ImportCandidate) (rest : List ImportCandidate) (cat : Catalog) (fs : FSt)
        (p : String),
      env.cancel 0 = false → cand.primary_path = some p → fsRead fs p = none →
      import_images_with_callbacks env cat fs (cand :: rest) kws .Add none strat =
        (ImportSt.mk cat fs, .error ("failed to hash file " ++ p))) := by
  have hloop : ∀ (env : ImportEnv) (method : ImportMethod) (strat : DuplicateStrategy)
      (destDir : Option String) (kws : List String) (cand : ImportCandidate)
      (rest : List ImportCandidate) (idx : Nat) (st : ImportSt) (rep : ImportReport)
      (p : String),
      env.cancel idx = false → cand.primary_path = some p → fsRead st.fs p = none →
      import_loop env method strat destDir kws (cand :: rest) idx st rep =
        (st, .error ("failed to hash file " ++ p)) := by
    intro env method strat destDir kws cand rest idx st rep p hcancel hprim hread
    have hhash : compute_file_hash env.hashContent st.fs p =
        .error ("failed to open file for hashing: " ++ p) := by
      unfold compute_file_hash
      rw [hread]
    unfold import_loop
    rw [if_neg (by rw [hcancel]; intro h; cases h)]
    have hproc : process_candidate env method strat destDir kws st rep cand =
        .error ("failed to hash file " ++ p) := by
      unfold process_candidate
      rw [hprim]
      simp only [hhash]
    rw [hproc]
  refine ⟨hloop, ?_⟩
  intro env strat kws cand rest cat fs p hcancel hprim hread
  unfold import_images_with_callbacks
  exact hloop env .Add strat none (normalize_keywords kws) cand rest 0 ⟨cat, fs⟩
    emptyReport p hcancel hprim hread

/-- C4 witness: the abort statement applied at a concrete missing file. -/
theorem hash_failure_aborts_import_witness :
    import_images_with_callbacks
        ⟨fun n => toString n, fun _ _ => none, fun _ _ => none, fun _ => none, fun _ => none,
          fun _ => none, fun _ => false⟩
        emptyCatalog [] [ImportCandidate.mk none (some "/d/a.jpg") .JpegOnly] []
        .Add none .Skip =
      (ImportSt.mk emptyCatalog [], .error "failed to hash file /d/a.jpg") :=
  hash_failure_aborts_import.2
    ⟨fun n => toString n, fun _ _ => none, fun _ _ => none, fun _ => none, fun _ => none,
      fun _ => none, fun _ => false⟩
    .Skip [] (ImportCandidate.mk none (some "/d/a.jpg") .JpegOnly) [] emptyCatalog []
    "/d/a.jpg" rfl rfl rfl

theorem process_candidate_skip_sum (env : ImportEnv) (method : ImportMethod)
    (destDir : Option String) (kws : List String) (st : ImportSt) (rep : ImportReport)
    (c : ImportCandidate) (st1 : ImportSt) (rep1 : ImportReport)
    (h : process_candidate env method .Skip destDir kws st rep c = .ok (st1, rep1)) :
    rep1.imported + rep1.duplicates.length + rep1.failed.length ≤
      rep.imported + rep.duplicates.length + rep.failed.length + 1 := by
  unfold process_candidate at h
  cases hpp : c.primary_path with
  | none =>
    rw [hpp] at h
    simp only at h
    cases h
    simp
    omega
  | some p =>
    rw [hpp] at h
    cases hch : compute_file_hash env.hashContent st.fs p with
    | error e =>
      simp only [hch] at h
      cases h
    | ok hash =>
      simp only [hch] at h
      cases hfd : find_image_by_hash st.cat hash with
      | some img =>
        simp only [hfd] at h
        rw [if_pos (by simp)] at h
        cases h
        simp
        omega
      | none =>
        simp only [hfd] at h
        rw [if_neg (by simp)] at h
        cases hpre : prepare_candidate_paths st.fs c method destDir with
        | error e =>
          simp only [hpre] at h
          cases h
          simp
          omega
        | ok fp =>
          simp only [hpre] at h
          cases hppp : fp.2.primary_path with
          | none =>
            simp only [hppp] at h
            cases h
            simp
            omega
          | some target =>
            simp only [hppp] at h
            cases hfo : find_image_by_original_path st.cat target with
            | some img2 =>
              simp only [hfo] at h
              cases h
              simp
              omega
            | none =>
              simp only [hfo] at h
              cases him : import_image_at env.hashContent st.cat fp.1 target with
              | error e =>
                simp only [him] at h
                cases h
                simp
                omega
              | ok ci =>
                simp only [him] at h
                cases h
                simp
                omega

theorem import_loop_skip_sum (env : ImportEnv) (method : ImportMethod)
    (destDir : Option String) (kws : List String) :
    ∀ (l : List ImportCandidate) (idx : Nat) (st : ImportSt) (rep : ImportReport)
      (st2 : ImportSt) (rep2 : ImportReport),
      import_loop env method .Skip destDir kws l idx st rep = (st2, Except.ok rep2) →
      rep2.imported + rep2.duplicates.length + rep2.failed.length ≤
        rep.imported + rep.duplicates.length + rep.failed.length + l.length := by
  intro l
  induction l with
  | nil =>
    intro idx st rep st2 rep2 h
    unfold import_loop at h
    injection h with h1 h2
    injection h2 with h3
    subst h3
    omega
  | cons c rest ih =>
    intro idx st rep st2 rep2 h
    unfold import_loop at h
    by_cases hcan : env.cancel idx = true
    · rw [if_pos hcan] at h
      injection h with h1 h2
      injection h2 with h3
      subst h3
      simp only [List.length_cons]
      omega
    · rw [if_neg hcan] at h
      cases hpc : process_candidate env method .Skip destDir kws st rep c with
      | error e =>
        simp only [hpc] at h
        simp at h
      | ok pr =>
        obtain ⟨st1, rep1⟩ := pr
        simp only [hpc] at h
        have hsum1 := process_candidate_skip_sum env method destDir kws st rep c st1 rep1 hpc
        have hsum2 := ih (idx + 1) st1 rep1 st2 rep2 h
        simp only [List.length_cons]
        omega

theorem process_candidate_canceled (env : ImportEnv) (method : ImportMethod)
    (strat : DuplicateStrategy) (destDir : Option String) (kws : List String)
    (st : ImportSt) (rep : ImportReport) (c : ImportCandidate) (st1 : ImportSt)
    (rep1 : ImportReport)
    (h : process_candidate env method strat destDir kws st rep c = .ok (st1, rep1)) :
    rep1.canceled = rep.canceled := by
  unfold process_candidate at h
  cases hpp : c.primary_path with
  | none =>
    rw [hpp] at h
    cases h
    rfl
  | some p =>
    rw [hpp] at h
    cases hch : compute_file_hash env.hashContent st.fs p with
    | error e =>
      simp only [hch] at h
      cases h
    | ok hash =>
      simp only [hch] at h
      cases hfd : find_image_by_hash st.cat hash with
      | some img =>
        simp only [hfd] at h
        by_cases hs : strat = DuplicateStrategy.Skip
        · rw [if_pos (by simp [hs])] at h
          cases h
          rfl
        · rw [if_neg (by simp [hs])] at h
          cases hpre : prepare_candidate_paths st.fs c method destDir with
          | error e =>
            simp only [hpre] at h
            cases h
            rfl
          | ok fp =>
            simp only [hpre] at h
            cases hppp : fp.2.primary_path with
            | none =>
              simp only [hppp] at h
              cases h
              rfl
            | some target =>
              simp only [hppp] at h
              cases hfo : find_image_by_original_path st.cat target with
              | some img2 =>
                simp only [hfo] at h
                cases h
                rfl
              | none =>
                simp only [hfo] at h
                cases him : import_image_at env.hashContent st.cat fp.1 target with
                | error e =>
                  simp only [him] at h
                  cases h
                  rfl
                | ok ci =>
                  simp only [him] at h
                  cases h
                  rfl
      | none =>
        simp only [hfd] at h
        rw [if_neg (by simp)] at h
        cases hpre : prepare_candidate_paths st.fs c method destDir with
        | error e =>
          simp only [hpre] at h
          cases h
          rfl
        | ok fp =>
          simp only [hpre] at h
          cases hppp : fp.2.primary_path with
          | none =>
            simp only [hppp] at h
            cases h
            rfl
          | some target =>
            simp only [hppp] at h
            cases hfo : find_image_by_original_path st.cat target with
            | some img2 =>
              simp only [hfo] at h
              cases h
              rfl
            | none =>
              simp only [hfo] at h
              cases him : import_image_at env.hashContent st.cat fp.1 target with
              | error e =>
                simp only [him] at h
                cases h
                rfl
              | ok ci =>
                simp only [him] at h
                cases h
                rfl

theorem import_loop_canceled (env : ImportEnv) (method : ImportMethod)
    (strat : DuplicateStrategy) (destDir : Option String) (kws : List String) :
    ∀ (l : List ImportCandidate) (idx : Nat) (st : ImportSt) (rep : ImportReport)
      (st2 : ImportSt) (rep2 : ImportReport),
      (∀ i, i < idx + l.length → env.cancel i = false) →
      import_loop env method strat destDir kws l idx st rep = (st2, Except.ok rep2) →
      rep2.canceled = rep.canceled := by
  intro l
  induction l with
  | nil =>
    intro idx st rep st2 rep2 hcf h
    unfold import_loop at h
    injection h with h1 h2
    injection h2 with h3
    subst h3
    rfl
  | cons c rest ih =>
    intro idx st rep st2 rep2 hcf h
    unfold import_loop at h
    have hcan : env.cancel idx = false := hcf idx (by simp only [List.length_cons]; omega)
    rw [if_neg (by simp [hcan])] at h
    cases hpc : process_candidate env method strat destDir kws st rep c with
    | error e =>
      simp only [hpc] at h
      simp at h
    | ok pr =>
      obtain ⟨st1, rep1⟩ := pr
      simp only [hpc] at h
      have h1 := process_candidate_canceled env method strat destDir kws st rep c st1 rep1 hpc
      have h2 := ih (idx + 1) st1 rep1 st2 rep2
        (fun i hi => hcf i (by simp only [List.length_cons] at hi ⊢; omega)) h
      rw [h2, h1]

theorem import_loop_take_of_cancelN (env : ImportEnv) (method : ImportMethod)
    (strat : DuplicateStrategy) (destDir : Option String) (kws : List String) (N : Nat)
    (hc : ∀ i, env.cancel i = decide (N ≤ i)) :
    ∀ (l : List ImportCandidate) (idx : Nat), idx ≤ N → N < idx + l.length →
      ∀ (st : ImportSt) (rep : ImportReport),
      import_loop env method strat destDir kws l idx st rep =
        (match import_loop env method strat destDir kws (l.take (N - idx)) idx st rep with
          | (st2, Except.ok rep2) => (st2, Except.ok { rep2 with canceled := true })
          | (st2, Except.error e) => (st2, Except.error e)) := by
  intro l
  induction l with
  | nil =>
    intro idx h1 h2 st rep
    exfalso
    simp only [List.length_nil] at h2
    omega
  | cons c rest ih =>
    intro idx h1 h2 st rep
    by_cases hidx : idx = N
    · have hcan : env.cancel idx = true := by rw [hc, hidx]; simp
      have hsub : N - idx = 0 := by omega
      rw [hsub]
      show import_loop env method strat destDir kws (c :: rest) idx st rep =
        (st, Except.ok { rep with canceled := true })
      unfold import_loop
      rw [if_pos hcan]
    · have hlt : idx < N := lt_of_le_of_ne h1 hidx
      have hcan : env.cancel idx = false := by rw [hc]; simp; omega
      have hsub : N - idx = (N - (idx + 1)) + 1 := by omega
      rw [hsub, List.take_succ_cons]
      have hL : ∀ (l' : List ImportCandidate),
          import_loop env method strat destDir kws (c :: l') idx st rep =
            (match process_candidate env method strat destDir kws st rep c with
              | Except.error e => (st, Except.error e)
              | Except.ok (st1, rep1) =>
                import_loop env method strat destDir kws l' (idx + 1) st1 rep1) := by
        intro l'
        conv_lhs => unfold import_loop
        rw [if_neg (by simp [hcan])]
      rw [hL rest, hL (List.take (N - (idx + 1)) rest)]
      cases hpc : process_candidate env method strat destDir kws st rep c with
      | error e => rfl
      | ok pr =>
        obtain ⟨st1, rep1⟩ := pr
        exact ih (idx + 1) (by omega) (by simp only [List.length_cons] at h2; omega) st1 rep1

/-- C5 (amended): with the cancellation flag raised from poll N on, the
candidate loop processes exactly the first N candidates — the run equals the
run on `take N` of the batch with `canceled := true` — the report is marked
canceled, and under the Skip duplicate strategy imported + |duplicates| +
|failed| ≤ N.  (Under ImportAnyway the bound can fail: a duplicate candidate
counts both as a duplicate and as imported.) -/
theorem cancel_after_n_bounds (env : ImportEnv) (N : Nat)
    (hc : ∀ i, env.cancel i = decide (N ≤ i)) (cat : Catalog) (fs : FSt)
    (cands : List ImportCandidate) (keywords : List String) (method : ImportMethod)
    (dest : Option String) (strat : DuplicateStrategy) (hN : N < cands.length)
    (st1 : ImportSt) (rep1 : ImportReport)
    (h : import_images_with_callbacks env cat fs cands keywords method dest strat =
      (st1, Except.ok rep1)) :
    rep1.canceled = true ∧
    import_images_with_callbacks env cat fs (cands.take N) keywords method dest strat =
      (st1, Except.ok { rep1 with canceled := false }) ∧
    (strat = DuplicateStrategy.Skip →
      rep1.imported + rep1.duplicates.length + rep1.failed.length ≤ N) := by
  have main : ∀ (destDir : Option String),
      import_loop env method strat destDir (normalize_keywords keywords) cands 0
          ⟨cat, fs⟩ emptyReport = (st1, Except.ok rep1) →
      rep1.canceled = true ∧
      import_loop env method strat destDir (normalize_keywords keywords) (cands.take N) 0
          ⟨cat, fs⟩ emptyReport = (st1, Except.ok { rep1 with canceled := false }) ∧
      (strat = DuplicateStrategy.Skip →
        rep1.imported + rep1.duplicates.length + rep1.failed.length ≤ N) := by
    intro destDir hloop
    have htake := import_loop_take_of_cancelN env method strat destDir
      (normalize_keywords keywords) N hc cands 0 (Nat.zero_le N) (by omega)
      ⟨cat, fs⟩ emptyReport
    rw [hloop, Nat.sub_zero] at htake
    rcases hT : import_loop env method strat destDir (normalize_keywords keywords)
        (cands.take N) 0 ⟨cat, fs⟩ emptyReport with ⟨stT, rT⟩
    rw [hT] at htake
    cases rT with
    | error e => simp at htake
    | ok repT =>
      have hst : st1 = stT := congrArg Prod.fst htake
      have hsnd : (Except.ok rep1 : Except String ImportReport) =
          Except.ok { repT with canceled := true } := congrArg Prod.snd htake
      have hrep : rep1 = { repT with canceled := true } := by injection hsnd
      have hTfalse : repT.canceled = false := by
        have hfalse : ∀ i, i < 0 + (cands.take N).length → env.cancel i = false := by
          intro i hi
          simp only [Nat.zero_add, List.length_take] at hi
          have hiN : i < N := lt_of_lt_of_le hi (Nat.min_le_left _ _)
          rw [hc]
          simp
          omega
        have hpre := import_loop_canceled env method strat destDir
          (normalize_keywords keywords) (cands.take N) 0 ⟨cat, fs⟩ emptyReport stT repT
          hfalse hT
        simpa using hpre
      refine ⟨by rw [hrep], ?_, ?_⟩
      · rw [hst, hrep]
        cases repT with
        | mk a b c d e =>
          simp at hTfalse
          rw [hTfalse]
      · intro hskip
        subst hskip
        have hsum := import_loop_skip_sum env method destDir (normalize_keywords keywords)
          (cands.take N) 0 ⟨cat, fs⟩ emptyReport stT repT hT
        have hgoal : rep1.imported + rep1.duplicates.length + rep1.failed.length =
            repT.imported + repT.duplicates.length + repT.failed.length := by rw [hrep]
        rw [hgoal]
        have hlen : (cands.take N).length = N := by
          rw [List.length_take]
          exact Nat.min_eq_left (Nat.le_of_lt hN)
        rw [hlen] at hsum
        simpa [emptyReport] using hsum
  cases method with
  | Add =>
    cases dest with
    | none => exact main none h
    | some d => exact main none h
  | Copy =>
    cases dest with
    | none =>
      have hbad : (Except.error "destination directory is required for copy or move" :
          Except String ImportReport) = Except.ok rep1 := congrArg Prod.snd h
      exact absurd hbad (by simp)
    | some d => exact main (some d) h
  | Move =>
    cases dest with
    | none =>
      have hbad : (Except.error "destination directory is required for copy or move" :
          Except String ImportReport) = Except.ok rep1 := congrArg Prod.snd h
      exact absurd hbad (by simp)
    | some d => exact main (some d) h

/-- C5 witness: the cancellation bound applied to the concrete two-candidate
Skip run at N = 1: the flag is raised from poll index 1 on, the returned
report is marked canceled, the run equals the one-candidate prefix run with
the canceled mark added, and imported + |duplicates| + |failed| = 1 ≤ 1. -/
theorem cancel_after_n_bounds_witness :
    (∀ i, envC5.cancel i = decide (1 ≤ i)) ∧
    1 < ([candA, candA] : List ImportCandidate).length ∧
    import_images_with_callbacks envC5 emptyCatalog fsC5 [candA, candA] [] .Add none .Skip =
      (runC5.1, Except.ok ⟨1, [], [], true, true⟩) ∧
    ((⟨1, [], [], true, true⟩ : ImportReport).canceled = true ∧
      import_images_with_callbacks envC5 emptyCatalog fsC5 ([candA, candA].take 1) [] .Add none
          .Skip =
        (runC5.1, Except.ok { (⟨1, [], [], true, true⟩ : ImportReport) with canceled := false }) ∧
      (DuplicateStrategy.Skip = DuplicateStrategy.Skip →
        (⟨1, [], [], true, true⟩ : ImportReport).imported +
          (⟨1, [], [], true, true⟩ : ImportReport).duplicates.length +
          (⟨1, [], [], true, true⟩ : ImportReport).failed.length ≤ 1)) :=
  ⟨fun i => rfl, by decide, rfl,
    cancel_after_n_bounds envC5 1 (fun i => rfl) emptyCatalog fsC5 [candA, candA] []
      .Add none .Skip (by decide) runC5.1 ⟨1, [], [], true, true⟩ rfl⟩

/-- C5 counterexample to the unqualified bound: under the ImportAnyway
duplicate strategy a single processed candidate can add 2 to
imported + |duplicates| + |failed| — it is recorded as a duplicate by hash
and then imported anyway — so canceling after N = 1 candidates yields a
canceled report whose sum is 2, exceeding N. -/
theorem cancel_after_n_claim_cx :
    (import_images_with_callbacks envC5 catC5 fsC5 [candA, candA] [] .Add none
          .ImportAnyway).2.map
        (fun r => (r.canceled, r.imported + r.duplicates.length + r.failed.length)) =
      Except.ok (true, 2) ∧ ¬ (2 ≤ 1) := ⟨rfl, by decide⟩

theorem find_aux_append_of_none {α : Type} (f : α → Bool) :
    ∀ (l1 l2 : List α), l1.find? f = none → (l1 ++ l2).find? f = l2.find? f := by
  intro l1
  induction l1 with
  | nil => intro l2 _; rfl
  | cons x xs ih =>
    intro l2 h
    by_cases hx : f x = true
    · rw [List.find?_cons_of_pos _ hx] at h
      exact absurd h (by simp)
    · rw [List.find?_cons_of_neg _ hx] at h
      rw [List.cons_append, List.find?_cons_of_neg _ hx]
      exact ih l2 h

theorem process_candidate_skip_dup (env : ImportEnv) (method : ImportMethod)
    (destDir : Option String) (kws : List String) (st : ImportSt) (rep : ImportReport)
    (cand : ImportCandidate) (p : String) (c : Nat) (img0 : Image)
    (hpp : cand.primary_path = some p) (hread : fsRead st.fs p = some c)
    (hfind : find_image_by_hash st.cat (env.hashContent c) = some img0) :
    process_candidate env method .Skip destDir kws st rep cand =
      .ok (st, { rep with duplicates := rep.duplicates ++ [p] }) := by
  have hch : compute_file_hash env.hashContent st.fs p = .ok (env.hashContent c) := by
    unfold compute_file_hash
    rw [hread]
  unfold process_candidate
  rw [hpp]
  simp only [hch]
  simp only [hfind]
  rw [if_pos (by simp)]

theorem process_candidate_add_fresh (env : ImportEnv) (kws : List String) (cat : Catalog)
    (fs : FSt) (cand : ImportCandidate) (p : String) (c : Nat)
    (hpp : cand.primary_path = some p) (hread : fsRead fs p = some c)
    (hhash : find_image_by_hash cat (env.hashContent c) = none)
    (hop : ∀ img ∈ cat.images, img.originalPath ≠ p) (hfn : file_name_of p ≠ "") :
    ∃ (img : Image) (cat4 : Catalog),
      process_candidate env .Add .Skip none kws ⟨cat, fs⟩ emptyReport cand =
        .ok (⟨cat4, fs⟩, ⟨1, [], [], false, true⟩) ∧
      cat4.images = cat.images ++ [img] ∧ img.originalPath = p ∧
      img.fileHash = some (env.hashContent c) := by
  have hch : compute_file_hash env.hashContent fs p = .ok (env.hashContent c) := by
    unfold compute_file_hash
    rw [hread]
  have hfo : find_image_by_original_path cat p = none := by
    unfold find_image_by_original_path
    rw [List.find?_eq_none]
    intro x hx
    simpa using hop x hx
  set F := ensure_folder cat (parent_path p) with hF
  set img0 : Image := ⟨maxId (F.1.images.map (·.id)) + 1, F.2, file_name_of p, p, none,
    some (env.hashContent c), none, none, none⟩ with himg0
  set cat1 : Catalog := { F.1 with images := F.1.images ++ [img0] } with hcat1
  have hFimages : F.1.images = cat.images := by
    rw [hF]
    exact ensure_folder_images cat (parent_path p)
  have himp : import_image_at env.hashContent cat fs p = .ok (cat1, img0) := by
    unfold import_image_at
    simp only [hread]
    have hany : ((ensure_folder cat (parent_path p)).1.images.any
        fun img => img.originalPath = p) = false := by
      rw [ensure_folder_images, List.any_eq_false]
      intro x hx
      simpa using hop x hx
    rw [if_neg hfn, if_neg (by simp [hany])]
  set C2 := update_sidecar_path cat1 img0.id cand.jpegPath with hC2
  set C3 := thumbnailStage env C2 img0.id cand.rawPath cand.jpegPath with hC3
  set C4 := kws.foldl (fun c1 kw => add_keyword_to_image c1 img0.id kw) C3 with hC4
  have hprep : prepare_candidate_paths fs cand .Add none =
      .ok (fs, ⟨cand.rawPath, cand.jpegPath, []⟩) := rfl
  have hpp2 : PreparedCandidate.primary_path ⟨cand.rawPath, cand.jpegPath, []⟩ = some p := hpp
  have hproc : process_candidate env .Add .Skip none kws ⟨cat, fs⟩ emptyReport cand =
      .ok (⟨C4, fs⟩, ⟨1, [], [], false, true⟩) := by
    unfold process_candidate
    rw [hpp]
    simp only [hch]
    simp only [hhash]
    rw [if_neg (by simp)]
    simp only [hprep]
    simp only [hpp2]
    simp only [hfo]
    simp only [himp]
    rfl
  have h2img : C2.images = cat.images ++ [{ img0 with sidecarPath := cand.jpegPath }] := by
    show ((F.1.images ++ [img0]).map fun x =>
        if x.id = img0.id then { x with sidecarPath := cand.jpegPath } else x) =
      cat.images ++ [{ img0 with sidecarPath := cand.jpegPath }]
    have hfresh : img0.id ∉ cat.images.map (·.id) := by
      have h0 : img0.id = maxId (F.1.images.map (·.id)) + 1 := rfl
      rw [h0, hFimages]
      exact maxId_succ_fresh _
    rw [hFimages, List.map_append,
      map_if_id_fresh (fun x => { x with sidecarPath := cand.jpegPath }) img0.id cat.images
        hfresh]
    simp only [List.map_cons, List.map_nil]
    simp
  have h4img : C4.images = cat.images ++ [{ img0 with sidecarPath := cand.jpegPath }] := by
    have h43 : C4.images = C3.images := by
      rw [hC4]
      exact foldl_add_keyword_images img0.id kws C3
    have h32 : C3.images = C2.images := by
      rw [hC3]
      exact thumbnailStage_images env C2 img0.id cand.rawPath cand.jpegPath
    rw [h43, h32, h2img]
  exact ⟨{ img0 with sidecarPath := cand.jpegPath }, C4, hproc, h4img, rfl, rfl⟩

/-- C1: re-importing an unchanged file with method Add under the default
Skip duplicate strategy: a first import of a fresh file succeeds and appends
exactly one image row carrying the file's hash, and a second import of the
same (unchanged) candidate finds that row by hash, records the file in the
report's duplicates list, and leaves the catalog and filesystem unchanged —
no second image row is inserted. -/
theorem reimport_unchanged_add_dup_by_hash (env : ImportEnv) (cat : Catalog) (fs : FSt)
    (cand : ImportCandidate) (p : String) (c : Nat) (keywords : List String)
    (hnc : ∀ i, env.cancel i = false)
    (hpp : cand.primary_path = some p)
    (hread : fsRead fs p = some c)
    (hhash : find_image_by_hash cat (env.hashContent c) = none)
    (hop : ∀ img ∈ cat.images, img.originalPath ≠ p)
    (hfn : file_name_of p ≠ "") :
    ∃ (st1 : ImportSt) (img : Image),
      import_images_with_callbacks env cat fs [cand] keywords .Add none .Skip =
        (st1, Except.ok ⟨1, [], [], false, true⟩) ∧
      st1.fs = fs ∧
      st1.cat.images = cat.images ++ [img] ∧
      img.originalPath = p ∧
      img.fileHash = some (env.hashContent c) ∧
      import_images_with_callbacks env st1.cat st1.fs [cand] keywords .Add none .Skip =
        (st1, Except.ok ⟨0, [p], [], false, false⟩) := by
  obtain ⟨img, cat4, hproc, h4img, hopath, hfhash⟩ :=
    process_candidate_add_fresh env (normalize_keywords keywords) cat fs cand p c hpp hread
      hhash hop hfn
  refine ⟨⟨cat4, fs⟩, img, ?_, rfl, h4img, hopath, hfhash, ?_⟩
  · show import_loop env .Add .Skip none (normalize_keywords keywords) [cand] 0 ⟨cat, fs⟩
        emptyReport = _
    unfold import_loop
    rw [if_neg (by simp [hnc 0])]
    simp only [hproc]
    rfl
  · have hfind2 : find_image_by_hash cat4 (env.hashContent c) = some img := by
      unfold find_image_by_hash at hhash ⊢
      rw [h4img, find_aux_append_of_none _ _ _ hhash]
      rw [List.find?_cons_of_pos _ (by simp [hfhash])]
    have hp2 := process_candidate_skip_dup env .Add none (normalize_keywords keywords)
      ⟨cat4, fs⟩ emptyReport cand p c img hpp hread hfind2
    show import_loop env .Add .Skip none (normalize_keywords keywords) [cand] 0 ⟨cat4, fs⟩
        emptyReport = _
    unfold import_loop
    rw [if_neg (by simp [hnc 0])]
    simp only [hp2]
    rfl

/-- C1 witness: the re-import statement applied to a concrete one-file
batch: the first import appends the single image row with hash "7" and the
second run reports the file as a duplicate with nothing imported. -/
theorem reimport_unchanged_add_dup_by_hash_witness :
    (∀ i, envC1.cancel i = false) ∧ candA.primary_path = some "/d/a.jpg" ∧
    fsRead fsC5 "/d/a.jpg" = some 7 ∧
    find_image_by_hash emptyCatalog (envC1.hashContent 7) = none ∧
    (∀ img ∈ emptyCatalog.images, img.originalPath ≠ "/d/a.jpg") ∧
    file_name_of "/d/a.jpg" ≠ "" ∧
    (∃ (st1 : ImportSt) (img : Image),
      import_images_with_callbacks envC1 emptyCatalog fsC5 [candA] [] .Add none .Skip =
        (st1, Except.ok ⟨1, [], [], false, true⟩) ∧
      st1.fs = fsC5 ∧
      st1.cat.images = emptyCatalog.images ++ [img] ∧
      img.originalPath = "/d/a.jpg" ∧
      img.fileHash = some (envC1.hashContent 7) ∧
      import_images_with_callbacks envC1 st1.cat st1.fs [candA] [] .Add none .Skip =
        (st1, Except.ok ⟨0, ["/d/a.jpg"], [], false, false⟩)) :=
  ⟨fun i => rfl, rfl, rfl, rfl, by simp [emptyCatalog], by decide,
    reimport_unchanged_add_dup_by_hash envC1 emptyCatalog fsC5 candA "/d/a.jpg" 7 []
      (fun i => rfl) rfl rfl rfl (by simp [emptyCatalog]) (by decide)⟩
